import Mathlib

/-!
Verification of the sdsl-lite core: packed bit vectors (`int_vector`),
the dense (`rank_support_v`) and sparse (`rank_support_v5`) rank indices,
and the select-support word primitives.

Machine words are modelled as `Nat` values below `2 ^ 64`; buffers as
`List Nat`; truncating C++ arithmetic carries explicit `% 2 ^ w` or masks.
Functions whose source file is part of the repository are transcribed from
it (`int_vector.hpp`, `memory_management.hpp`, `rank_support_v.hpp`,
`rank_support_v5.hpp`, `select_support.hpp`).  The word-level counting
kernel (`bits.hpp`), the rank traits (`rank_support.hpp`) and
`util::set_to_value` (`util.hpp`) are not in the source tree and are
modelled from the specification, as marked in their doc comments.
-/

/-! ### Word-level primitives -/

/-- Population count of a natural number (number of set bits).
Modelled from the spec: `bits::cnt` of `bits.hpp` is not in the source
tree; the spec treats it as the standard broadword population count. -/
def popcount (x : Nat) : Nat :=
  if x = 0 then 0 else x % 2 + popcount (x / 2)
decreasing_by exact Nat.div_lt_self (Nat.pos_of_ne_zero (by assumption)) (by omega)

/-- `bits::lo_set[l]`: a word whose `l` lowest bits are set.
Modelled from the spec: `bits.hpp` is not in the source tree. -/
def loSet (l : Nat) : Nat := 2 ^ l - 1

/-- Number of set bits of `x` among bit positions `0 ≤ i < m`. -/
def countBits (x m : Nat) : Nat := (List.range m).countP (fun i => x.testBit i)

theorem popcount_zero : popcount 0 = 0 := by
  unfold popcount; simp

theorem popcount_of_ne_zero (x : Nat) (h : x ≠ 0) :
    popcount x = x % 2 + popcount (x / 2) := by
  conv_lhs => unfold popcount
  simp [h]

theorem countBits_zero_left (m : Nat) : countBits 0 m = 0 := by
  simp [countBits, List.countP_eq_zero]

theorem countBits_succ (x m : Nat) :
    countBits x (m + 1) = (if x.testBit 0 then 1 else 0) + countBits (x / 2) m := by
  have h2 : List.countP (fun i => x.testBit i) (List.map (· + 1) (List.range m))
      = countBits (x / 2) m := by
    rw [List.countP_map]
    apply List.countP_congr
    intro i _
    simp [Function.comp, Nat.testBit_add_one]
  unfold countBits
  rw [List.range_succ_eq_map, List.countP_cons]
  rw [show List.countP (fun i => x.testBit i) (List.map (· + 1) (List.range m))
      = List.countP (fun i => (x / 2).testBit i) (List.range m) from h2]
  by_cases hb : x.testBit 0 <;> simp [hb, Nat.add_comm]

/-- For `x < 2 ^ m`, the population count equals the count of the low `m` bits. -/
theorem popcount_eq_countBits (m : Nat) : ∀ x : Nat, x < 2 ^ m → popcount x = countBits x m := by
  induction m with
  | zero =>
    intro x hx
    interval_cases x
    · simp [popcount_zero, countBits_zero_left]
  | succ m ih =>
    intro x hx
    by_cases hx0 : x = 0
    · simp [hx0, popcount_zero, countBits_zero_left]
    · rw [popcount_of_ne_zero x hx0, countBits_succ]
      have hlt : x / 2 < 2 ^ m := by
        rw [Nat.pow_succ] at hx; omega
      rw [ih (x / 2) hlt]
      have : x % 2 = if x.testBit 0 then 1 else 0 := by
        rcases Nat.mod_two_eq_zero_or_one x with h | h <;> simp [Nat.testBit_zero, h]
      omega

theorem land_loSet (x m : Nat) : x &&& loSet m = x % 2 ^ m := by
  exact Nat.and_pow_two_sub_one_eq_mod x m

theorem testBit_land_loSet (x m i : Nat) :
    (x &&& loSet m).testBit i = (decide (i < m) && x.testBit i) := by
  rw [land_loSet, Nat.testBit_mod_two_pow]

/-- Counting the bits of `x &&& loSet m` gives the count of the low `m` bits of `x`. -/
theorem popcount_land_loSet (x m : Nat) : popcount (x &&& loSet m) = countBits x m := by
  have hlt : x &&& loSet m < 2 ^ m := by
    rw [land_loSet]; exact Nat.mod_lt _ (by positivity)
  rw [popcount_eq_countBits m _ hlt]
  unfold countBits
  apply List.countP_congr
  intro i hi
  rw [List.mem_range] at hi
  rw [testBit_land_loSet]
  simp [hi]

theorem countBits_congr (x y m : Nat) (h : ∀ i, i < m → x.testBit i = y.testBit i) :
    countBits x m = countBits y m := by
  unfold countBits
  apply List.countP_congr
  intro i hi
  rw [List.mem_range] at hi
  simp [h i hi]

/-! ### Bit patterns

`rank_support_v`/`rank_support_v5` and the select traits are parameterized
by a bit pattern `t_b` of length `t_pat_len`: `0`,`1` (length 1) and
`00`,`01`,`10`,`11` (length 2). -/

/-- The six supported bit patterns. -/
inductive Pat : Type
| p0
| p1
| p00
| p01
| p10
| p11
deriving DecidableEq

/-- Length (in bits) of a pattern: `t_pat_len`. -/
def Pat.plen : Pat → Nat
  | .p0 => 1
  | .p1 => 1
  | _ => 2

/-- `rank_support_trait<t_b, t_pat_len>::init_carry()`.
Modelled from the spec: `rank_support.hpp` is not in the source tree; §4.1
says the difference patterns `00`,`01` use a virtual previous bit `1`, and
`10`,`11` a virtual `0` (the source `select_support.hpp` realizes the same
values in its `init_carry` members). -/
def initCarry : Pat → Nat
  | .p00 => 1
  | .p01 => 1
  | _ => 0

/-- Bitwise complement within a 64-bit word (C++ `~w` on `uint64_t`). -/
def compl64 (w : Nat) : Nat := w ^^^ (2 ^ 64 - 1)

/-- C++ `(w << 1) | carry` on `uint64_t`: shift drops the top bit. -/
def shlOr (w c : Nat) : Nat := ((w <<< 1) % 2 ^ 64) ||| c

/-- The marker word of a pattern: bit `i` is set iff a pattern occurrence is
located at bit `i` of `w` (2-bit occurrences are located at their second bit;
`carry` supplies the bit preceding the word).
Modelled from the spec: §4.1 derives 2-bit markers from shift-by-one combined
with the carry (an AND for `11`, an OR-based complement for `00`, asymmetric
AND/OR combinations for `10`/`01`); the `00`/`11` forms appear verbatim in
`select_support.hpp` (`~(((w << 1) | carry) | w)` and `((w << 1) | carry) & w`). -/
def marker (p : Pat) (w c : Nat) : Nat :=
  match p with
  | .p0 => compl64 w
  | .p1 => w
  | .p00 => compl64 (shlOr w c ||| w)
  | .p01 => w &&& compl64 (shlOr w c)
  | .p10 => compl64 w &&& shlOr w c
  | .p11 => shlOr w c &&& w

/-! ### The bit vector and its packed words

A `bit_vector` (an `int_vector<1>`) of logical length `n` is modelled by a
`List Bool` of its bits; `bvWord v j` is the 64-bit data word number `j`,
with every bit beyond the vector length read as zero (the padding guarantee
the rank structures assume of a freshly built vector). -/

/-- Pack `n` bits (LSB first) into a natural number. -/
def natOfBits (f : Nat → Bool) : Nat → Nat
  | 0 => 0
  | n + 1 => (if f 0 then 1 else 0) + 2 * natOfBits (fun i => f (i + 1)) n

/-- 64-bit data word `j` of the bit vector `v`. -/
def bvWord (v : List Bool) (j : Nat) : Nat :=
  natOfBits (fun k => v.getD (64 * j + k) false) 64

/-- The carry in effect when the counting kernel processes word `j`:
the initial carry for word 0, else the last bit of word `j - 1`. -/
def carryAt (p : Pat) (v : List Bool) (j : Nat) : Nat :=
  if j = 0 then initCarry p else (if v.getD (64 * j - 1) false then 1 else 0)

/-- Does a pattern occurrence lie at bit position `j` of `v`?  Transcribed
from `select_support_trait<..>::found_arg` (`select_support.hpp`), which the
repository test suite also uses as the naive rank reference: a length-2
occurrence at `j` requires `j > 0` and constrains bits `j-1, j`. -/
def occursAt (p : Pat) (v : List Bool) (j : Nat) : Bool :=
  match p with
  | .p0 => !(v.getD j false)
  | .p1 => v.getD j false
  | .p00 => decide (j ≠ 0) && (!(v.getD (j - 1) false) && !(v.getD j false))
  | .p01 => decide (j ≠ 0) && (!(v.getD (j - 1) false) && (v.getD j false))
  | .p10 => decide (j ≠ 0) && ((v.getD (j - 1) false) && !(v.getD j false))
  | .p11 => decide (j ≠ 0) && ((v.getD (j - 1) false) && (v.getD j false))

/-- Number of pattern occurrences located strictly below bit `i`: the naive
rank scan (the reference loop of `rank_support_test.cpp`). -/
def naiveRank (p : Pat) (v : List Bool) (i : Nat) : Nat :=
  (List.range i).countP (fun j => occursAt p v j)

theorem natOfBits_lt (f : Nat → Bool) (n : Nat) : natOfBits f n < 2 ^ n := by
  induction n generalizing f with
  | zero => simp [natOfBits]
  | succ n ih =>
    have := ih (fun i => f (i + 1))
    simp only [natOfBits, Nat.pow_succ]
    by_cases hb : f 0 <;> simp [hb] <;> omega

theorem testBit_natOfBits (f : Nat → Bool) (n i : Nat) :
    (natOfBits f n).testBit i = (decide (i < n) && f i) := by
  induction n generalizing f i with
  | zero => simp [natOfBits]
  | succ n ih =>
    have hval : natOfBits f (n + 1)
        = (if f 0 then 1 else 0) + 2 * natOfBits (fun i => f (i + 1)) n := rfl
    cases i with
    | zero =>
      rw [hval, Nat.testBit_zero]
      by_cases hb : f 0 <;> simp [hb, Nat.add_mul_mod_self_left]
    | succ i =>
      rw [hval, Nat.testBit_add_one]
      have hdiv : ((if f 0 then 1 else 0) + 2 * natOfBits (fun i => f (i + 1)) n) / 2
          = natOfBits (fun i => f (i + 1)) n := by
        by_cases hb : f 0 <;> simp [hb] <;> omega
      rw [hdiv, ih]
      simp [Nat.succ_lt_succ_iff]

theorem bvWord_lt (v : List Bool) (j : Nat) : bvWord v j < 2 ^ 64 :=
  natOfBits_lt _ 64

theorem testBit_bvWord (v : List Bool) (j k : Nat) (hk : k < 64) :
    (bvWord v j).testBit k = v.getD (64 * j + k) false := by
  rw [bvWord, testBit_natOfBits]
  simp [hk]

theorem compl64_lt (x : Nat) (hx : x < 2 ^ 64) : compl64 x < 2 ^ 64 :=
  Nat.xor_lt_two_pow hx (by omega)

theorem testBit_compl64 (x k : Nat) (hk : k < 64) :
    (compl64 x).testBit k = !(x.testBit k) := by
  rw [compl64, Nat.testBit_xor, Nat.testBit_two_pow_sub_one]
  simp [hk]

theorem shlOr_lt (w c : Nat) (hc : c ≤ 1) : shlOr w c < 2 ^ 64 := by
  have h1 : (w <<< 1) % 2 ^ 64 < 2 ^ 64 := Nat.mod_lt _ (by positivity)
  exact Nat.or_lt_two_pow h1 (by omega)

theorem testBit_shlOr (w c k : Nat) (hc : c ≤ 1) (hk : k < 64) :
    (shlOr w c).testBit k
      = (if k = 0 then decide (c = 1) else w.testBit (k - 1)) := by
  rw [shlOr, Nat.testBit_or, Nat.testBit_mod_two_pow, Nat.testBit_shiftLeft]
  cases k with
  | zero =>
    have hc0 : c.testBit 0 = decide (c = 1) := by
      interval_cases c <;> simp
    simp [hc0]
  | succ k =>
    have hc1 : c.testBit (k + 1) = false := by
      interval_cases c
      · simp
      · rw [Nat.testBit_add_one]
        simp
    simp [hk, hc1, Nat.succ_le_succ_iff]

/-- Truth value of the bit preceding position `i`, with the pattern's virtual
bit standing in before position 0. -/
def prevCarryBit (p : Pat) (v : List Bool) (i : Nat) : Bool :=
  if i = 0 then decide (initCarry p = 1) else v.getD (i - 1) false

theorem carryAt_le_one (p : Pat) (v : List Bool) (j : Nat) : carryAt p v j ≤ 1 := by
  rw [carryAt]
  cases p <;> split <;> simp [initCarry] <;> split <;> simp

theorem testBit_shlOr_word (p : Pat) (v : List Bool) (j k : Nat) (hk : k < 64) :
    (shlOr (bvWord v j) (carryAt p v j)).testBit k = prevCarryBit p v (64 * j + k) := by
  rw [testBit_shlOr _ _ _ (carryAt_le_one p v j) hk, prevCarryBit]
  cases k with
  | zero =>
    simp only [if_pos rfl]
    by_cases hj : j = 0
    · subst hj
      simp [carryAt]
    · have h64 : ¬ (64 * j + 0 = 0) := by positivity
      rw [carryAt, if_neg hj, if_neg h64]
      by_cases hb : v.getD (64 * j - 1) false <;> simp [hb]
  | succ k =>
    have h1 : ¬ (k + 1 = 0) := by omega
    have h2 : ¬ (64 * j + (k + 1) = 0) := by omega
    rw [if_neg h1, if_neg h2]
    simp only [Nat.add_sub_cancel]
    rw [testBit_bvWord v j k (by omega)]
    congr 1

/-- Kernel correspondence: bit `k` of the marker word for data word `j`
(with the running carry) is set exactly when a pattern occurrence is located
at bit `64 j + k` of the vector. -/
theorem marker_testBit (p : Pat) (v : List Bool) (j k : Nat) (hk : k < 64) :
    (marker p (bvWord v j) (carryAt p v j)).testBit k = occursAt p v (64 * j + k) := by
  have hw := bvWord_lt v j
  have hc := carryAt_le_one p v j
  have hcur := testBit_bvWord v j k hk
  have hprev := testBit_shlOr_word p v j k hk
  have hsh := shlOr_lt (bvWord v j) (carryAt p v j) hc
  have hzero : (64 * j + k = 0) ↔ (j = 0 ∧ k = 0) := by omega
  cases p with
  | p0 =>
    rw [marker, testBit_compl64 _ _ hk, hcur, occursAt]
  | p1 =>
    rw [marker, hcur, occursAt]
  | p00 =>
    rw [marker, testBit_compl64 _ _ hk, Nat.testBit_or, hprev, hcur, occursAt, prevCarryBit]
    by_cases h0 : 64 * j + k = 0
    · rw [if_pos h0, h0]
      simp [initCarry]
    · rw [if_neg h0]
      simp [h0]
  | p01 =>
    rw [marker, Nat.testBit_and, testBit_compl64 _ _ hk, hprev, hcur, occursAt, prevCarryBit]
    by_cases h0 : 64 * j + k = 0
    · rw [if_pos h0, h0]
      simp [initCarry]
    · rw [if_neg h0]
      simp [h0, Bool.and_comm]
  | p10 =>
    rw [marker, Nat.testBit_and, testBit_compl64 _ _ hk, hprev, hcur, occursAt, prevCarryBit]
    by_cases h0 : 64 * j + k = 0
    · rw [if_pos h0, h0]
      simp [initCarry]
    · rw [if_neg h0]
      simp [h0, Bool.and_comm]
  | p11 =>
    rw [marker, Nat.testBit_and, hprev, hcur, occursAt, prevCarryBit]
    by_cases h0 : 64 * j + k = 0
    · rw [if_pos h0, h0]
      simp [initCarry]
    · rw [if_neg h0]
      simp [h0]

theorem marker_lt (p : Pat) (w c : Nat) (hw : w < 2 ^ 64) (hc : c ≤ 1) :
    marker p w c < 2 ^ 64 := by
  cases p with
  | p0 => exact compl64_lt w hw
  | p1 => exact hw
  | p00 =>
    exact compl64_lt _ (Nat.or_lt_two_pow (shlOr_lt w c hc) hw)
  | p01 => exact Nat.lt_of_le_of_lt (Nat.and_le_left) hw
  | p10 => exact Nat.lt_of_le_of_lt (Nat.and_le_right) (shlOr_lt w c hc)
  | p11 => exact Nat.lt_of_le_of_lt (Nat.and_le_right) hw

/-- `rank_support_trait<..>::args_in_the_word(w, carry)` for data word `j`:
the number of pattern occurrences located inside word `j`.
Modelled from the spec: `rank_support.hpp` is not in the source tree; §4.1
specifies `count_in_word` as the population count of the marker word. -/
def cword (p : Pat) (v : List Bool) (j : Nat) : Nat :=
  popcount (marker p (bvWord v j) (carryAt p v j))

/-- `rank_support_trait<..>::word_rank(data, idx)`: occurrences located in
word `idx / 64` strictly below bit `idx`.
Modelled from the spec: `rank_support.hpp` is not in the source tree; §4.3
uses `count_in_word_masked(lastPartialWord, idx mod 64, carry)`. -/
def wordRank (p : Pat) (v : List Bool) (idx : Nat) : Nat :=
  popcount (marker p (bvWord v (idx / 64)) (carryAt p v (idx / 64)) &&& loSet (idx % 64))

/-- `rank_support_trait<..>::full_word_rank(data, idx)`: occurrences located
in the whole word containing bit `idx`.
Modelled from the spec: `rank_support.hpp` is not in the source tree. -/
def fullWordRank (p : Pat) (v : List Bool) (idx : Nat) : Nat :=
  cword p v (idx / 64)

theorem cword_eq_countP (p : Pat) (v : List Bool) (j : Nat) :
    cword p v j = (List.range 64).countP (fun k => occursAt p v (64 * j + k)) := by
  rw [cword, popcount_eq_countBits 64 _
    (marker_lt p _ _ (bvWord_lt v j) (carryAt_le_one p v j))]
  unfold countBits
  apply List.countP_congr
  intro k hk
  rw [List.mem_range] at hk
  simp [marker_testBit p v j k hk]

theorem wordRank_eq_countP (p : Pat) (v : List Bool) (idx : Nat) :
    wordRank p v idx
      = (List.range (idx % 64)).countP (fun k => occursAt p v (64 * (idx / 64) + k)) := by
  rw [wordRank, popcount_land_loSet]
  unfold countBits
  apply List.countP_congr
  intro k hk
  rw [List.mem_range] at hk
  have hk64 : k < 64 := Nat.lt_of_lt_of_le hk (Nat.le_of_lt (Nat.mod_lt _ (by omega)))
  simp [marker_testBit p v (idx / 64) k hk64]

/-- Prefix sum of per-word occurrence counts over the first `m` data words. -/
def scount (p : Pat) (v : List Bool) (m : Nat) : Nat :=
  ∑ j ∈ Finset.range m, cword p v j

theorem scount_succ (p : Pat) (v : List Bool) (m : Nat) :
    scount p v (m + 1) = scount p v m + cword p v m := by
  rw [scount, scount, Finset.sum_range_succ]

theorem naiveRank_word_multiple (p : Pat) (v : List Bool) (m : Nat) :
    naiveRank p v (64 * m) = scount p v m := by
  induction m with
  | zero => simp [naiveRank, scount]
  | succ m ih =>
    have hsplit : 64 * (m + 1) = 64 * m + 64 := by ring
    rw [hsplit, naiveRank, List.range_add, List.countP_append, List.countP_map]
    rw [scount_succ, ← ih, naiveRank]
    congr 1
    rw [cword_eq_countP]
    apply List.countP_congr
    intro k hk
    simp [Function.comp, Nat.add_comm]

/-- The naive rank at `idx` splits into full-word counts plus the masked
count inside the word containing `idx`. -/
theorem naiveRank_split (p : Pat) (v : List Bool) (idx : Nat) :
    naiveRank p v idx = scount p v (idx / 64) + wordRank p v idx := by
  have hidx : idx = 64 * (idx / 64) + idx % 64 := by omega
  conv_lhs => rw [hidx]
  rw [naiveRank, List.range_add, List.countP_append, List.countP_map]
  congr 1
  · rw [← naiveRank, naiveRank_word_multiple]
  · rw [wordRank_eq_countP]
    apply List.countP_congr
    intro k hk
    simp [Function.comp, Nat.add_comm]

/-! ### Generic word/array helper lemmas -/

theorem popcount_le_64 (x : Nat) (hx : x < 2 ^ 64) : popcount x ≤ 64 := by
  rw [popcount_eq_countBits 64 x hx, countBits]
  calc (List.range 64).countP (fun i => x.testBit i) ≤ (List.range 64).length :=
        List.countP_le_length _
  _ = 64 := by simp

theorem cword_le_64 (p : Pat) (v : List Bool) (j : Nat) : cword p v j ≤ 64 :=
  popcount_le_64 _ (marker_lt p _ _ (bvWord_lt v j) (carryAt_le_one p v j))

/-- Or-ing a value into the zero low bits of a word is addition. -/
theorem lor_eq_add_of_dvd (a b t : Nat) (ha : 2 ^ t ∣ a) (hb : b < 2 ^ t) :
    a ||| b = a + b := by
  obtain ⟨c, rfl⟩ := ha
  apply Nat.eq_of_testBit_eq
  intro j
  have hmul : ∀ bv : Nat, bv < 2 ^ t → ∀ jj : Nat,
      (2 ^ t * c + bv).testBit jj
        = if jj < t then bv.testBit jj else c.testBit (jj - t) := by
    intro bv hbv jj
    exact Nat.testBit_mul_pow_two_add c hbv jj
  have hzero : (2 ^ t * c).testBit j = if j < t then false else c.testBit (j - t) := by
    have := hmul 0 (by positivity) j
    simpa using this
  rw [Nat.testBit_or, hzero, hmul b hb j]
  by_cases hj : j < t
  · simp [hj]
  · have hbj : b.testBit j = false :=
      Nat.testBit_lt_two_pow (Nat.lt_of_lt_of_le hb (Nat.pow_le_pow_right (by omega) (by omega)))
    simp [hj, hbj]

/-- Clearing the least significant bit (`x & 0xFFFFFFFFFFFFFFFE`). -/
theorem land_clear_lsb (y : Nat) (hy : y < 2 ^ 64) :
    y &&& 0xFFFFFFFFFFFFFFFE = 2 * (y / 2) := by
  apply Nat.eq_of_testBit_eq
  intro j
  rw [Nat.testBit_and]
  have hmask : (0xFFFFFFFFFFFFFFFE : Nat) = 2 * (2 ^ 63 - 1) := by norm_num
  have hmt : ∀ i : Nat, (0xFFFFFFFFFFFFFFFE : Nat).testBit i
      = (decide (1 ≤ i) && decide (i < 64)) := by
    intro i
    rw [hmask, show (2 : Nat) * (2 ^ 63 - 1) = (2 ^ 63 - 1) <<< 1 by
      rw [Nat.shiftLeft_eq]; ring]
    rw [Nat.testBit_shiftLeft, Nat.testBit_two_pow_sub_one]
    rcases i with _ | i
    · simp
    · simp [Nat.succ_le_succ_iff, Nat.succ_lt_succ_iff, Nat.lt_succ_iff]
  have hrt : ∀ i : Nat, (2 * (y / 2)).testBit i
      = (decide (1 ≤ i) && y.testBit i) := by
    intro i
    rw [show (2 : Nat) * (y / 2) = (y / 2) <<< 1 by rw [Nat.shiftLeft_eq]; ring]
    rw [Nat.testBit_shiftLeft]
    rcases i with _ | i
    · simp
    · simp [Nat.succ_le_succ_iff, Nat.testBit_add_one]
  rw [hmt j, hrt j]
  by_cases hj64 : j < 64
  · by_cases hj1 : 1 ≤ j <;> simp [hj1, hj64]
  · have : y.testBit j = false :=
      Nat.testBit_lt_two_pow (Nat.lt_of_lt_of_le hy (Nat.pow_le_pow_right (by omega) (by omega)))
    simp [hj64, this]

/-- The top bit of a 64-bit word, as produced by `w >> 63`. -/
theorem shiftRight63_eq (x : Nat) (hx : x < 2 ^ 64) :
    x >>> 63 = if x.testBit 63 then 1 else 0 := by
  rw [Nat.shiftRight_eq_div_pow, Nat.testBit_to_div_mod]
  have hle : x / 2 ^ 63 < 2 := by
    rw [Nat.div_lt_iff_lt_mul (by positivity)]
    omega
  interval_cases h : x / 2 ^ 63 <;> simp

theorem bvWord_shiftRight63 (p : Pat) (v : List Bool) (j : Nat) :
    bvWord v j >>> 63 = carryAt p v (j + 1) := by
  rw [shiftRight63_eq _ (bvWord_lt v j), testBit_bvWord v j 63 (by omega), carryAt,
    if_neg (by omega : ¬ (j + 1 = 0))]
  have harg : 64 * j + 63 = 64 * (j + 1) - 1 := by omega
  rw [harg]

theorem getD_set_self (l : List Nat) (i : Nat) (x : Nat) (h : i < l.length) :
    (l.set i x).getD i 0 = x := by
  rw [List.getD_eq_getElem?_getD, List.getElem?_set_self (by simpa using h)]
  simp

theorem getD_set_ne (l : List Nat) (i j x : Nat) (h : i ≠ j) :
    (l.set i x).getD j 0 = l.getD j 0 := by
  rw [List.getD_eq_getElem?_getD, List.getElem?_set_ne h, ← List.getD_eq_getElem?_getD]

/-! ### `rank_support_v` (dense rank index, `rank_support_v.hpp`)

The constructor makes one forward pass over the data words, interleaving
absolute superblock counts (even entries of `m_basic_block`) with packed
relative block counts (odd entries, seven 9-bit fields at shifts
`54, 45, 36, 27, 18, 9, 0`). -/

/-- Loop state of the `rank_support_v` constructor: `j`, `m_basic_block`,
`carry`, `sum`, `second_level_cnt`. -/
structure RsvSt : Type where
  j : Nat
  bb : List Nat
  carry : Nat
  sum : Nat
  slc : Nat

/-- Body of the `for (i = 1; i < nw; ++i)` loop of the `rank_support_v`
constructor, transcribed from `rank_support_v.hpp`. -/
def rsvStep (p : Pat) (v : List Bool) (st : RsvSt) (i : Nat) : RsvSt :=
  let st1 :=
    if i % 8 = 0 then
      let j1 := st.j + 2
      let bb1 := st.bb.set (j1 - 1) st.slc
      let bb2 := bb1.set j1 (bb1.getD (j1 - 2) 0 + st.sum)
      { st with j := j1, bb := bb2, slc := 0, sum := 0 }
    else
      { st with slc := st.slc ||| (st.sum <<< (63 - 9 * (i % 8))) }
  { st1 with
    sum := st1.sum + popcount (marker p (bvWord v i) st1.carry)
    carry := bvWord v i >>> 63 }

/-- State before the first loop iteration: `args_in_the_word(*data, carry)`
on word 0 starting from `init_carry()`. -/
def rsvInit (p : Pat) (v : List Bool) (bbs : Nat) : RsvSt :=
  { j := 0
    bb := List.replicate bbs 0
    carry := bvWord v 0 >>> 63
    sum := popcount (marker p (bvWord v 0) (initCarry p))
    slc := 0 }

/-- The `rank_support_v` constructor (`m_basic_block` contents), transcribed
from `rank_support_v.hpp`.  An empty supported vector yields the two-entry
zero array `int_vector<64>(2, 0)`. -/
def rsvBuild (p : Pat) (v : List Bool) : List Nat :=
  if v.length = 0 then [0, 0]
  else
    let bbs := (((v.length + 63) >>> 9) + 1) <<< 1
    let nw := (v.length + 63) >>> 6
    let st := (List.range' 1 (nw - 1)).foldl (rsvStep p v) (rsvInit p v bbs)
    if nw % 8 ≠ 0 then
      (st.bb.set (st.j + 1) (st.slc ||| (st.sum <<< (63 - 9 * (nw % 8)))))
    else
      let j1 := st.j + 2
      let bb1 := st.bb.set (j1 - 1) st.slc
      let bb2 := bb1.set j1 (bb1.getD (j1 - 2) 0 + st.sum)
      bb2.set (j1 + 1) 0

/-- `rank_support_v::rank(idx)`, transcribed from `rank_support_v.hpp`:
superblock prefix + unpacked relative block count + in-word partial count. -/
def rsvRank (p : Pat) (v : List Bool) (bb : List Nat) (idx : Nat) : Nat :=
  let pp := (idx >>> 8) &&& 0xFFFFFFFFFFFFFFFE
  if idx &&& 0x3F ≠ 0 then
    bb.getD pp 0 + ((bb.getD (pp + 1) 0 >>> (63 - 9 * ((idx &&& 0x1FF) >>> 6))) &&& 0x1FF)
      + wordRank p v idx
  else
    bb.getD pp 0 + ((bb.getD (pp + 1) 0 >>> (63 - 9 * ((idx &&& 0x1FF) >>> 6))) &&& 0x1FF)

/-- Relative count of block `b` inside superblock `s` (words
`8 s … 8 s + b - 1`). -/
def relC (p : Pat) (v : List Bool) (s b : Nat) : Nat :=
  ∑ jj ∈ Finset.Ico (8 * s) (8 * s + b), cword p v jj

/-- The packed second-level word holding fields `1 … t` of superblock `s`
(field `b` is the 9-bit relative count of block `b`, at shift `63 - 9 b`). -/
def packedRel (p : Pat) (v : List Bool) (s : Nat) : Nat → Nat
  | 0 => 0
  | t + 1 => packedRel p v s t + relC p v s (t + 1) * 2 ^ (63 - 9 * (t + 1))

theorem relC_le (p : Pat) (v : List Bool) (s b : Nat) :
    relC p v s b ≤ 64 * b := by
  unfold relC
  calc (∑ jj ∈ Finset.Ico (8 * s) (8 * s + b), cword p v jj)
      ≤ ∑ _jj ∈ Finset.Ico (8 * s) (8 * s + b), 64 :=
        Finset.sum_le_sum (fun jj _ => cword_le_64 p v jj)
  _ = 64 * b := by
    rw [Finset.sum_const, Nat.card_Ico, smul_eq_mul]
    omega

theorem relC_lt_512 (p : Pat) (v : List Bool) (s b : Nat) (hb : b ≤ 7) :
    relC p v s b < 512 := by
  have := relC_le p v s b
  omega

theorem relC_zero (p : Pat) (v : List Bool) (s : Nat) : relC p v s 0 = 0 := by
  simp [relC]

theorem relC_succ (p : Pat) (v : List Bool) (s b : Nat) :
    relC p v s (b + 1) = relC p v s b + cword p v (8 * s + b) := by
  unfold relC
  rw [show 8 * s + (b + 1) = (8 * s + b) + 1 by omega,
    Finset.sum_Ico_succ_top (by omega)]

theorem scount_add_relC (p : Pat) (v : List Bool) (s b : Nat) :
    scount p v (8 * s) + relC p v s b = scount p v (8 * s + b) := by
  unfold scount relC
  rw [Finset.sum_range_add_sum_Ico _ (by omega : 8 * s ≤ 8 * s + b)]

theorem packedRel_dvd (p : Pat) (v : List Bool) (s t : Nat) :
    2 ^ (63 - 9 * t) ∣ packedRel p v s t := by
  induction t with
  | zero => simp [packedRel]
  | succ t ih =>
    rw [packedRel]
    apply Nat.dvd_add
    · exact Nat.dvd_trans (Nat.pow_dvd_pow 2 (by omega)) ih
    · exact Dvd.dvd.mul_left (Nat.dvd_refl _) _

/-- Unpacking a 9-bit field (`(x >> (63 - 9 b)) & 0x1FF`) from the packed
second-level word: fields beyond the packed range read as zero. -/
theorem packedRel_extract (p : Pat) (v : List Bool) (s t b0 : Nat)
    (ht : t ≤ 7) (hb0 : b0 ≤ 7) :
    (packedRel p v s t >>> (63 - 9 * b0)) &&& 0x1FF
      = if 1 ≤ b0 ∧ b0 ≤ t then relC p v s b0 else 0 := by
  have h1 := relC_lt_512 p v s 1 (by omega)
  have h2 := relC_lt_512 p v s 2 (by omega)
  have h3 := relC_lt_512 p v s 3 (by omega)
  have h4 := relC_lt_512 p v s 4 (by omega)
  have h5 := relC_lt_512 p v s 5 (by omega)
  have h6 := relC_lt_512 p v s 6 (by omega)
  have h7 := relC_lt_512 p v s 7 (by omega)
  rw [show (0x1FF : Nat) = 2 ^ 9 - 1 by norm_num, Nat.and_pow_two_sub_one_eq_mod,
    Nat.shiftRight_eq_div_pow]
  interval_cases t <;> interval_cases b0 <;> simp [packedRel] <;> omega

theorem getD_replicate_zero (n k : Nat) : (List.replicate n (0 : Nat)).getD k 0 = 0 := by
  rw [List.getD_eq_getElem?_getD, List.getElem?_replicate]
  split <;> simp

/-- Invariant of the `rank_support_v` construction loop, holding at the entry
of iteration `i` (`1 ≤ i ≤ nw`): `j` points at the current superblock pair,
`carry`/`sum`/`second_level_cnt` hold the running values, written
`m_basic_block` entries hold absolute prefix counts (even slots) and packed
relative counts (odd slots), and unwritten entries are still zero. -/
structure RsvInvP (p : Pat) (v : List Bool) (bbs i : Nat) (st : RsvSt) : Prop where
  hj : st.j = 2 * ((i - 1) / 8)
  hc : st.carry = carryAt p v i
  hs : st.sum = ∑ jj ∈ Finset.Ico (8 * ((i - 1) / 8)) i, cword p v jj
  hl : st.slc = packedRel p v ((i - 1) / 8) ((i - 1) % 8)
  hlen : st.bb.length = bbs
  hsb : ∀ t, t ≤ (i - 1) / 8 → st.bb.getD (2 * t) 0 = scount p v (8 * t)
  hbl : ∀ t, t < (i - 1) / 8 → st.bb.getD (2 * t + 1) 0 = packedRel p v t 7
  hz : ∀ k, 2 * ((i - 1) / 8) + 1 ≤ k → st.bb.getD k 0 = 0

theorem rsvInit_inv (p : Pat) (v : List Bool) (bbs : Nat) :
    RsvInvP p v bbs 1 (rsvInit p v bbs) := by
  refine ⟨?_, ?_, ?_, ?_, ?_, ?_, ?_, ?_⟩
  · simp [rsvInit]
  · exact bvWord_shiftRight63 p v 0
  · show popcount (marker p (bvWord v 0) (initCarry p)) = _
    rw [show (1 : Nat) - 1 = 0 from rfl]
    norm_num [Finset.sum_Ico_eq_sum_range]
    rw [cword, carryAt, if_pos rfl]
  · simp [rsvInit, packedRel]
  · simp [rsvInit]
  · intro t ht
    have ht0 : t = 0 := by omega
    subst ht0
    show (List.replicate bbs (0 : Nat)).getD 0 0 = _
    rw [getD_replicate_zero]
    simp [scount]
  · intro t ht
    omega
  · intro k _
    exact getD_replicate_zero bbs k

theorem rsvStep_inv (p : Pat) (v : List Bool) (bbs nw i : Nat)
    (hbbs : 2 * (nw / 8) + 2 ≤ bbs)
    (st : RsvSt) (h1 : 1 ≤ i) (hltnw : i < nw)
    (hinv : RsvInvP p v bbs i st) :
    RsvInvP p v bbs (i + 1) (rsvStep p v st i) := by
  obtain ⟨hj, hc, hs, hl, hlen, hsb, hbl, hz⟩ := hinv
  have hmle : i / 8 ≤ nw / 8 := Nat.div_le_div_right (Nat.le_of_lt hltnw)
  by_cases hr : i % 8 = 0
  · -- superblock boundary: i = 8 m
    set m := i / 8 with hm
    have hm1 : 1 ≤ m := by omega
    have him : i = 8 * m := by omega
    have hpq : (i - 1) / 8 = m - 1 := by omega
    have hpr : (i - 1) % 8 = 7 := by omega
    have hstep : rsvStep p v st i =
        { j := st.j + 2
          bb := ((st.bb.set (st.j + 1) st.slc).set (st.j + 2)
            ((st.bb.set (st.j + 1) st.slc).getD st.j 0 + st.sum))
          carry := bvWord v i >>> 63
          sum := popcount (marker p (bvWord v i) st.carry)
          slc := 0 } := by
      simp [rsvStep, hr]
    rw [hstep]
    have hjval : st.j = 2 * (m - 1) := by rw [hj, hpq]
    have hlen1 : (st.bb.set (st.j + 1) st.slc).length = bbs := by
      rw [List.length_set, hlen]
    have hb2m : st.j + 2 < bbs := by omega
    have hb2m1 : st.j + 1 < bbs := by omega
    refine ⟨?_, ?_, ?_, ?_, ?_, ?_, ?_, ?_⟩
    · show st.j + 2 = 2 * ((i + 1 - 1) / 8)
      omega
    · exact bvWord_shiftRight63 p v i
    · show popcount (marker p (bvWord v i) st.carry) = _
      rw [hc, ← cword]
      have harg : 8 * ((i + 1 - 1) / 8) = i := by omega
      rw [harg, Finset.sum_Ico_succ_top (by omega), Finset.Ico_self, Finset.sum_empty,
        Nat.zero_add]
    · show (0 : Nat) = packedRel p v ((i + 1 - 1) / 8) ((i + 1 - 1) % 8)
      have harg : (i + 1 - 1) % 8 = 0 := by omega
      rw [harg, packedRel]
    · show (_ : List Nat).length = bbs
      rw [List.length_set, hlen1]
    · intro t ht
      have htm : t ≤ m := by omega
      rcases Nat.lt_or_ge t m with htlt | htge
      · have hne2 : st.j + 2 ≠ 2 * t := by omega
        have hne1 : st.j + 1 ≠ 2 * t := by omega
        show ((st.bb.set (st.j + 1) st.slc).set (st.j + 2) _).getD (2 * t) 0 = _
        rw [getD_set_ne _ _ _ _ hne2, getD_set_ne _ _ _ _ hne1]
        exact hsb t (by omega)
      · have h2t : 2 * t = st.j + 2 := by omega
        rw [h2t]
        rw [getD_set_self _ _ _ (by rw [hlen1]; omega)]
        have hne : st.j + 1 ≠ st.j := by omega
        rw [getD_set_ne _ _ _ _ hne]
        rw [hjval, hsb (m - 1) (by omega), hs, hpq]
        simp only [scount]
        rw [Finset.sum_range_add_sum_Ico _ (show 8 * (m - 1) ≤ i by omega)]
        have hit : i = 8 * t := by omega
        rw [hit]
    · intro t ht
      have htm : t < m := by omega
      rcases Nat.lt_or_ge t (m - 1) with htlt | htge
      · have hne2 : st.j + 2 ≠ 2 * t + 1 := by omega
        have hne1 : st.j + 1 ≠ 2 * t + 1 := by omega
        show ((st.bb.set (st.j + 1) st.slc).set (st.j + 2) _).getD (2 * t + 1) 0 = _
        rw [getD_set_ne _ _ _ _ hne2, getD_set_ne _ _ _ _ hne1]
        exact hbl t (by omega)
      · have htm' : t = m - 1 := by omega
        subst htm'
        have h2t : 2 * (m - 1) + 1 = st.j + 1 := by omega
        show ((st.bb.set (st.j + 1) st.slc).set (st.j + 2) _).getD (2 * (m - 1) + 1) 0 = _
        rw [h2t, getD_set_ne _ _ _ _ (by omega), getD_set_self _ _ _ (by rw [hlen]; omega)]
        rw [hl, hpq, hpr]
    · intro k hk
      have hne2 : st.j + 2 ≠ k := by omega
      have hne1 : st.j + 1 ≠ k := by omega
      show ((st.bb.set (st.j + 1) st.slc).set (st.j + 2) _).getD k 0 = 0
      rw [getD_set_ne _ _ _ _ hne2, getD_set_ne _ _ _ _ hne1]
      exact hz k (by omega)
  · -- inside a superblock: pack the next 9-bit field
    set m := i / 8 with hm
    set r := i % 8 with hrdef
    have hr1 : 1 ≤ r := by omega
    have hr7 : r ≤ 7 := by omega
    have hpq : (i - 1) / 8 = m := by omega
    have hpr : (i - 1) % 8 = r - 1 := by omega
    have him : i = 8 * m + r := by omega
    have hstep : rsvStep p v st i =
        { j := st.j
          bb := st.bb
          carry := bvWord v i >>> 63
          sum := st.sum + popcount (marker p (bvWord v i) st.carry)
          slc := st.slc ||| (st.sum <<< (63 - 9 * (i % 8))) } := by
      simp [rsvStep, hr]
    rw [hstep]
    have hsum_relC : st.sum = relC p v m r := by
      rw [hs, hpq, relC, him]
    refine ⟨?_, ?_, ?_, ?_, ?_, ?_, ?_, ?_⟩
    · show st.j = 2 * ((i + 1 - 1) / 8)
      omega
    · exact bvWord_shiftRight63 p v i
    · show st.sum + popcount (marker p (bvWord v i) st.carry) = _
      rw [hc, ← cword, hs, hpq]
      have harg : (i + 1 - 1) / 8 = m := by omega
      rw [harg, Finset.sum_Ico_succ_top (by omega)]
    · show st.slc ||| (st.sum <<< (63 - 9 * (i % 8))) = _
      have harg1 : (i + 1 - 1) / 8 = m := by omega
      have harg2 : (i + 1 - 1) % 8 = r := by omega
      rw [harg1, harg2, hl, hpq, hpr, hsum_relC, ← hrdef]
      have hshift : relC p v m r <<< (63 - 9 * r) = relC p v m r * 2 ^ (63 - 9 * r) := by
        rw [Nat.shiftLeft_eq]
      rw [hshift]
      have hdvd : 2 ^ (63 - 9 * (r - 1)) ∣ packedRel p v m (r - 1) := packedRel_dvd p v m (r - 1)
      have hlt2 : relC p v m r * 2 ^ (63 - 9 * r) < 2 ^ (63 - 9 * (r - 1)) := by
        have hb : relC p v m r < 2 ^ 9 := relC_lt_512 p v m r hr7
        calc relC p v m r * 2 ^ (63 - 9 * r) < 2 ^ 9 * 2 ^ (63 - 9 * r) :=
              mul_lt_mul_of_pos_right hb (by positivity)
        _ = 2 ^ (9 + (63 - 9 * r)) := by rw [Nat.pow_add]
        _ = 2 ^ (63 - 9 * (r - 1)) := by congr 1; omega
      rw [lor_eq_add_of_dvd _ _ _ hdvd hlt2]
      have hr' : r = (r - 1) + 1 := by omega
      rw [hr', packedRel]
      congr 2
    · exact hlen
    · intro t ht
      apply hsb
      omega
    · intro t ht
      apply hbl
      omega
    · intro k hk
      apply hz
      omega

/-- Or-ing the next 9-bit relative count into the packed word extends the
packed range by one field. -/
theorem packedRel_or_field (p : Pat) (v : List Bool) (m r : Nat)
    (hr1 : 1 ≤ r) (hr7 : r ≤ 7) :
    packedRel p v m (r - 1) ||| (relC p v m r <<< (63 - 9 * r)) = packedRel p v m r := by
  rw [Nat.shiftLeft_eq]
  have hdvd : 2 ^ (63 - 9 * (r - 1)) ∣ packedRel p v m (r - 1) := packedRel_dvd p v m (r - 1)
  have hlt2 : relC p v m r * 2 ^ (63 - 9 * r) < 2 ^ (63 - 9 * (r - 1)) := by
    have hb : relC p v m r < 2 ^ 9 := relC_lt_512 p v m r hr7
    calc relC p v m r * 2 ^ (63 - 9 * r) < 2 ^ 9 * 2 ^ (63 - 9 * r) :=
          mul_lt_mul_of_pos_right hb (by positivity)
    _ = 2 ^ (9 + (63 - 9 * r)) := by rw [Nat.pow_add]
    _ = 2 ^ (63 - 9 * (r - 1)) := by congr 1; omega
  rw [lor_eq_add_of_dvd _ _ _ hdvd hlt2]
  have hr' : r = (r - 1) + 1 := by omega
  rw [hr', packedRel]
  congr 2

theorem rsvFold_inv (p : Pat) (v : List Bool) (bbs nw : Nat)
    (hbbs : 2 * (nw / 8) + 2 ≤ bbs) :
    ∀ n, 1 + n ≤ nw →
      RsvInvP p v bbs (1 + n) ((List.range' 1 n).foldl (rsvStep p v) (rsvInit p v bbs)) := by
  intro n
  induction n with
  | zero =>
    intro _
    exact rsvInit_inv p v bbs
  | succ n ih =>
    intro hle
    have hconcat : List.range' 1 (n + 1) = List.range' 1 n ++ [1 + n] :=
      List.range'_1_concat 1 n
    rw [hconcat, List.foldl_append]
    simp only [List.foldl_cons, List.foldl_nil]
    have hinv := ih (by omega)
    have hstep := rsvStep_inv p v bbs nw (1 + n) hbbs _ (by omega) (by omega) hinv
    simpa using hstep

/-- Contents of the built `m_basic_block`: even entries hold the absolute
prefix counts of the superblocks, odd entries the packed relative counts
(all seven fields for complete superblocks, the written prefix of fields for
the final partial superblock). -/
theorem rsvBuild_spec (p : Pat) (v : List Bool) (hv : v.length ≠ 0) :
    (∀ t, t ≤ ((v.length + 63) >>> 6) / 8 →
      (rsvBuild p v).getD (2 * t) 0 = scount p v (8 * t))
    ∧ (∀ t, t ≤ ((v.length + 63) >>> 6) / 8 →
      (rsvBuild p v).getD (2 * t + 1) 0
        = packedRel p v t
            (if t = ((v.length + 63) >>> 6) / 8 then ((v.length + 63) >>> 6) % 8 else 7)) := by
  set len := v.length with hlendef
  set nw := (len + 63) >>> 6 with hnwdef
  set bbs := (((len + 63) >>> 9) + 1) <<< 1 with hbbsdef
  have hnw64 : nw = (len + 63) / 64 := by
    rw [hnwdef, Nat.shiftRight_eq_div_pow]
  have hbbseq : bbs = 2 * (nw / 8) + 2 := by
    rw [hbbsdef, Nat.shiftLeft_eq, Nat.shiftRight_eq_div_pow, hnw64,
      Nat.div_div_eq_div_mul]
    norm_num
    omega
  have hnw1 : 1 ≤ nw := by
    rw [hnw64]
    have : 1 ≤ len := Nat.pos_of_ne_zero hv
    omega
  have hbuild : rsvBuild p v =
      (let st := (List.range' 1 (nw - 1)).foldl (rsvStep p v) (rsvInit p v bbs)
      if nw % 8 ≠ 0 then
        (st.bb.set (st.j + 1) (st.slc ||| (st.sum <<< (63 - 9 * (nw % 8)))))
      else
        let j1 := st.j + 2
        let bb1 := st.bb.set (j1 - 1) st.slc
        let bb2 := bb1.set j1 (bb1.getD (j1 - 2) 0 + st.sum)
        bb2.set (j1 + 1) 0) := by
    rw [rsvBuild, if_neg hv]
  obtain ⟨hj, hc, hs, hl, hlen, hsb, hbl, hz⟩ :=
    rsvFold_inv p v bbs nw (by omega) (nw - 1) (by omega)
  set st := (List.range' 1 (nw - 1)).foldl (rsvStep p v) (rsvInit p v bbs) with hstdef
  rw [show 1 + (nw - 1) = nw by omega] at hj hc hs hl hsb hbl hz
  by_cases hr : nw % 8 = 0
  · -- the vector ends exactly at a superblock boundary
    have hm1 : 8 ≤ nw := by omega
    set m := nw / 8 with hmdef
    have hpq : (nw - 1) / 8 = m - 1 := by omega
    have hpr : (nw - 1) % 8 = 7 := by omega
    have hjval : st.j = 2 * (m - 1) := by rw [hj, hpq]
    have hb2m : st.j + 2 < bbs := by omega
    have hlen1 : (st.bb.set (st.j + 1) st.slc).length = bbs := by
      rw [List.length_set, hlen]
    rw [hbuild]
    simp only [hr, if_pos, Ne, not_true_eq_false, if_false, ← hstdef,
      show st.j + 2 - 1 = st.j + 1 from rfl, show st.j + 2 - 2 = st.j from rfl]
    constructor
    · intro t ht
      have htm : t ≤ m := ht
      rcases Nat.lt_or_ge t m with htlt | htge
      · have hne3 : st.j + 2 + 1 ≠ 2 * t := by omega
        have hne2 : st.j + 2 ≠ 2 * t := by omega
        have hne1 : st.j + 1 ≠ 2 * t := by omega
        rw [getD_set_ne _ _ _ _ hne3, getD_set_ne _ _ _ _ hne2, getD_set_ne _ _ _ _ hne1]
        exact hsb t (by omega)
      · have h2t : 2 * t = st.j + 2 := by omega
        rw [h2t, getD_set_ne _ _ _ _ (by omega), getD_set_self _ _ _ (by rw [hlen1]; omega)]
        rw [getD_set_ne _ _ _ _ (show st.j + 1 ≠ st.j by omega)]
        rw [hjval, hsb (m - 1) (by omega), hs, hpq]
        simp only [scount]
        rw [Finset.sum_range_add_sum_Ico _ (show 8 * (m - 1) ≤ nw by omega)]
        have hit : nw = 8 * t := by omega
        rw [hit]
    · intro t ht
      rcases Nat.lt_or_ge t m with htlt | htge
      · rcases Nat.lt_or_ge t (m - 1) with htlt2 | htge2
        · have hne3 : st.j + 2 + 1 ≠ 2 * t + 1 := by omega
          have hne2 : st.j + 2 ≠ 2 * t + 1 := by omega
          have hne1 : st.j + 1 ≠ 2 * t + 1 := by omega
          rw [getD_set_ne _ _ _ _ hne3, getD_set_ne _ _ _ _ hne2, getD_set_ne _ _ _ _ hne1,
            hbl t (by omega), if_neg (by omega)]
        · have htm' : 2 * t + 1 = st.j + 1 := by omega
          rw [htm', getD_set_ne _ _ _ _ (by omega), getD_set_ne _ _ _ _ (by omega),
            getD_set_self _ _ _ (by rw [hlen]; omega)]
          rw [hl, hpq, hpr, if_neg (by omega)]
          have htval : t = m - 1 := by omega
          rw [htval]
      · have htm' : t = m := by omega
        subst htm'
        have hidx : 2 * m + 1 = st.j + 2 + 1 := by omega
        rw [hidx, getD_set_self _ _ _ (by
          simp only [List.length_set]
          rw [hlen]
          omega)]
        rw [if_pos rfl, packedRel]
  · -- the vector ends inside a superblock
    set m := nw / 8 with hmdef
    set r := nw % 8 with hrdef
    have hr1 : 1 ≤ r := by omega
    have hr7 : r ≤ 7 := by omega
    have hpq : (nw - 1) / 8 = m := by omega
    have hpr : (nw - 1) % 8 = r - 1 := by omega
    have hjval : st.j = 2 * m := by rw [hj, hpq]
    rw [hbuild]
    simp only [hr, if_pos, Ne, not_false_eq_true, if_true, ← hstdef]
    have hsum_relC : st.sum = relC p v m r := by
      rw [hs, hpq, relC]
      have harg : nw = 8 * m + r := by omega
      rw [harg]
    constructor
    · intro t ht
      have hne1 : st.j + 1 ≠ 2 * t := by omega
      rw [getD_set_ne _ _ _ _ hne1]
      exact hsb t (by omega)
    · intro t ht
      rcases Nat.lt_or_ge t m with htlt | htge
      · have hne1 : st.j + 1 ≠ 2 * t + 1 := by omega
        rw [getD_set_ne _ _ _ _ hne1, hbl t (by omega), if_neg (by omega)]
      · have htm' : t = m := by omega
        subst htm'
        have hidx : 2 * m + 1 = st.j + 1 := by omega
        rw [hidx, getD_set_self _ _ _ (by rw [hlen]; omega)]
        rw [hl, hpq, hpr, hsum_relC, if_pos rfl]
        exact packedRel_or_field p v m r hr1 hr7

/-- Dense rank correctness: `rank(idx)` of `rank_support_v` over the built
index equals the naive scan, for every `idx` up to and including `size()`. -/
theorem rsvRank_eq_naive (p : Pat) (v : List Bool) (idx : Nat)
    (hlen : v.length < 2 ^ 64) (hidx : idx ≤ v.length) :
    rsvRank p v (rsvBuild p v) idx = naiveRank p v idx := by
  by_cases hv : v.length = 0
  · have hidx0 : idx = 0 := by omega
    subst hidx0
    rw [rsvBuild, if_pos hv]
    simp [rsvRank, naiveRank]
  · set len := v.length with hlendef
    set nw := (len + 63) >>> 6 with hnwdef
    have hnw64 : nw = (len + 63) / 64 := by
      rw [hnwdef, Nat.shiftRight_eq_div_pow]
    have hdivle : idx ≤ 64 * nw := by omega
    have hpp : (idx >>> 8) &&& 0xFFFFFFFFFFFFFFFE = 2 * (idx / 512) := by
      have h8 : idx >>> 8 = idx / 256 := by
        rw [Nat.shiftRight_eq_div_pow]
      rw [h8, land_clear_lsb (idx / 256) (by omega), Nat.div_div_eq_div_mul]
    have hmask1FF : idx &&& 0x1FF = idx % 512 := by
      rw [show (0x1FF : Nat) = 2 ^ 9 - 1 by norm_num, Nat.and_pow_two_sub_one_eq_mod]
    have hmask3F : idx &&& 0x3F = idx % 64 := by
      rw [show (0x3F : Nat) = 2 ^ 6 - 1 by norm_num, Nat.and_pow_two_sub_one_eq_mod]
    have hblk : (idx % 512) >>> 6 = (idx % 512) / 64 := by
      rw [Nat.shiftRight_eq_div_pow]
    have hsle : idx / 512 ≤ nw / 8 := by
      have h1 : nw / 8 = (len + 63) / 512 := by
        rw [hnw64, Nat.div_div_eq_div_mul]
      rw [h1]
      exact Nat.div_le_div_right (by omega)
    have hb7 : (idx % 512) / 64 ≤ 7 := by omega
    obtain ⟨hsb, hbl⟩ := rsvBuild_spec p v hv
    have hsbv := hsb (idx / 512) hsle
    have hblv := hbl (idx / 512) hsle
    have hT7 : (if idx / 512 = nw / 8 then nw % 8 else 7) ≤ 7 := by
      split <;> omega
    have hfield : (packedRel p v (idx / 512) (if idx / 512 = nw / 8 then nw % 8 else 7)
        >>> (63 - 9 * ((idx % 512) / 64))) &&& 0x1FF
          = relC p v (idx / 512) ((idx % 512) / 64) := by
      rw [packedRel_extract p v (idx / 512) _ ((idx % 512) / 64) hT7 hb7]
      by_cases hb0 : (idx % 512) / 64 = 0
      · rw [if_neg (by omega), hb0, relC_zero]
      · rw [if_pos]
        refine ⟨by omega, ?_⟩
        split
        · next hcase => omega
        · omega
    simp only [rsvRank]
    rw [hpp, hmask1FF, hmask3F, hblk, hsbv, hblv, hfield]
    have harg : 8 * (idx / 512) + (idx % 512) / 64 = idx / 64 := by omega
    by_cases hr64 : idx % 64 = 0
    · rw [if_neg (by omega)]
      rw [naiveRank_split p v idx]
      rw [scount_add_relC, harg]
      have hwr : wordRank p v idx = 0 := by
        rw [wordRank, hr64, loSet]
        norm_num [popcount_zero]
      rw [hwr]
      omega
    · rw [if_pos (by omega)]
      rw [naiveRank_split p v idx]
      rw [scount_add_relC, harg]

/-! ### `rank_support_v5` (sparse rank index, `rank_support_v5.hpp`)

Superblocks of 2048 bits = 32 words, subdivided into blocks of 6 words
(384 bits); per superblock one word of absolute prefix count and one word
packing five 11-bit relative counts at 12-bit slots (shifts
`48, 36, 24, 12, 0`); queries pay up to 5 extra full-word counts. -/

/-- Relative count of the first `b` six-word blocks of superblock `s`
(words `32 s … 32 s + 6 b - 1`). -/
def relC5 (p : Pat) (v : List Bool) (s b : Nat) : Nat :=
  ∑ jj ∈ Finset.Ico (32 * s) (32 * s + 6 * b), cword p v jj

/-- The packed second-level word of `rank_support_v5` holding fields
`1 … t` of superblock `s` (field `b` at shift `60 - 12 b`). -/
def packedRel5 (p : Pat) (v : List Bool) (s : Nat) : Nat → Nat
  | 0 => 0
  | t + 1 => packedRel5 p v s t + relC5 p v s (t + 1) * 2 ^ (60 - 12 * (t + 1))

theorem relC5_le (p : Pat) (v : List Bool) (s b : Nat) :
    relC5 p v s b ≤ 384 * b := by
  unfold relC5
  calc (∑ jj ∈ Finset.Ico (32 * s) (32 * s + 6 * b), cword p v jj)
      ≤ ∑ _jj ∈ Finset.Ico (32 * s) (32 * s + 6 * b), 64 :=
        Finset.sum_le_sum (fun jj _ => cword_le_64 p v jj)
  _ = 384 * b := by
    rw [Finset.sum_const, Nat.card_Ico, smul_eq_mul]
    omega

theorem relC5_lt_2048 (p : Pat) (v : List Bool) (s b : Nat) (hb : b ≤ 5) :
    relC5 p v s b < 2048 := by
  have := relC5_le p v s b
  omega

theorem relC5_zero (p : Pat) (v : List Bool) (s : Nat) : relC5 p v s 0 = 0 := by
  simp [relC5]

theorem scount_add_relC5 (p : Pat) (v : List Bool) (s b : Nat) :
    scount p v (32 * s) + relC5 p v s b = scount p v (32 * s + 6 * b) := by
  unfold scount relC5
  rw [Finset.sum_range_add_sum_Ico _ (by omega : 32 * s ≤ 32 * s + 6 * b)]

theorem packedRel5_dvd (p : Pat) (v : List Bool) (s t : Nat) :
    2 ^ (60 - 12 * t) ∣ packedRel5 p v s t := by
  induction t with
  | zero => simp [packedRel5]
  | succ t ih =>
    rw [packedRel5]
    apply Nat.dvd_add
    · exact Nat.dvd_trans (Nat.pow_dvd_pow 2 (by omega)) ih
    · exact Dvd.dvd.mul_left (Nat.dvd_refl _) _

/-- Unpacking an 11-bit field (`(x >> (60 - 12 b)) & 0x7FF`) from the packed
second-level word of `rank_support_v5`. -/
theorem packedRel5_extract (p : Pat) (v : List Bool) (s t b0 : Nat)
    (ht : t ≤ 5) (hb0 : b0 ≤ 5) :
    (packedRel5 p v s t >>> (60 - 12 * b0)) &&& 0x7FF
      = if 1 ≤ b0 ∧ b0 ≤ t then relC5 p v s b0 else 0 := by
  have h1 := relC5_lt_2048 p v s 1 (by omega)
  have h2 := relC5_lt_2048 p v s 2 (by omega)
  have h3 := relC5_lt_2048 p v s 3 (by omega)
  have h4 := relC5_lt_2048 p v s 4 (by omega)
  have h5 := relC5_lt_2048 p v s 5 (by omega)
  rw [show (0x7FF : Nat) = 2 ^ 11 - 1 by norm_num, Nat.and_pow_two_sub_one_eq_mod,
    Nat.shiftRight_eq_div_pow]
  interval_cases t <;> interval_cases b0 <;> simp [packedRel5] <;> omega

/-- Or-ing the next 11-bit relative count into the packed word of
`rank_support_v5` extends the packed range by one field. -/
theorem packedRel5_or_field (p : Pat) (v : List Bool) (m k : Nat)
    (hk1 : 1 ≤ k) (hk5 : k ≤ 5) :
    packedRel5 p v m (k - 1) ||| (relC5 p v m k <<< (60 - 12 * k)) = packedRel5 p v m k := by
  rw [Nat.shiftLeft_eq]
  have hdvd : 2 ^ (60 - 12 * (k - 1)) ∣ packedRel5 p v m (k - 1) := packedRel5_dvd p v m (k - 1)
  have hlt2 : relC5 p v m k * 2 ^ (60 - 12 * k) < 2 ^ (60 - 12 * (k - 1)) := by
    have hb : relC5 p v m k < 2 ^ 11 := relC5_lt_2048 p v m k hk5
    calc relC5 p v m k * 2 ^ (60 - 12 * k) < 2 ^ 11 * 2 ^ (60 - 12 * k) :=
          mul_lt_mul_of_pos_right hb (by positivity)
    _ = 2 ^ (11 + (60 - 12 * k)) := by rw [Nat.pow_add]
    _ ≤ 2 ^ (60 - 12 * (k - 1)) := Nat.pow_le_pow_right (by omega) (by omega)
  rw [lor_eq_add_of_dvd _ _ _ hdvd hlt2]
  have hk' : k = (k - 1) + 1 := by omega
  rw [hk', packedRel5]
  congr 2

/-- Loop state of the `rank_support_v5` constructor: `j`, `m_basic_block`,
`carry`, `sum`, `second_level_cnt`, `cnt_words`. -/
structure Rsv5St : Type where
  j : Nat
  bb : List Nat
  carry : Nat
  sum : Nat
  slc : Nat
  cw : Nat

/-- Body of the `for (i = 1; i < nw; ++i, ++cnt_words)` loop of the
`rank_support_v5` constructor, transcribed from `rank_support_v5.hpp` (the
`++cnt_words` of the loop head is performed at the end of the step). -/
def rsv5Step (p : Pat) (v : List Bool) (st : Rsv5St) (i : Nat) : Rsv5St :=
  let st1 :=
    if st.cw = 32 then
      let j1 := st.j + 2
      let bb1 := st.bb.set (j1 - 1) st.slc
      let bb2 := bb1.set j1 (bb1.getD (j1 - 2) 0 + st.sum)
      { st with j := j1, bb := bb2, slc := 0, sum := 0, cw := 0 }
    else if st.cw % 6 = 0 then
      { st with slc := st.slc ||| (st.sum <<< (60 - 12 * (st.cw / 6))) }
    else
      st
  { st1 with
    sum := st1.sum + popcount (marker p (bvWord v i) st1.carry)
    carry := bvWord v i >>> 63
    cw := st1.cw + 1 }

/-- State before the first loop iteration of the `rank_support_v5`
constructor (`cnt_words = 1` after word 0 has been consumed). -/
def rsv5Init (p : Pat) (v : List Bool) (bbs : Nat) : Rsv5St :=
  { j := 0
    bb := List.replicate bbs 0
    carry := bvWord v 0 >>> 63
    sum := popcount (marker p (bvWord v 0) (initCarry p))
    slc := 0
    cw := 1 }

/-- The `rank_support_v5` constructor (`m_basic_block` contents), transcribed
from `rank_support_v5.hpp`. -/
def rsv5Build (p : Pat) (v : List Bool) : List Nat :=
  if v.length = 0 then [0, 0]
  else
    let bbs := (((v.length + 63) >>> 11) + 1) <<< 1
    let nw := (v.length + 63) >>> 6
    let st := (List.range' 1 (nw - 1)).foldl (rsv5Step p v) (rsv5Init p v bbs)
    let st1 :=
      if st.cw % 6 = 0 then
        { st with slc := st.slc ||| (st.sum <<< (60 - 12 * (st.cw / 6))) }
      else st
    if st1.cw = 32 then
      let j1 := st1.j + 2
      let bb1 := st1.bb.set (j1 - 1) st1.slc
      let bb2 := bb1.set j1 (bb1.getD (j1 - 2) 0 + st1.sum)
      bb2.set (j1 + 1) 0
    else
      st1.bb.set (st1.j + 1) st1.slc

/-- The trailing while loop of `rank_support_v5::rank`: `to_do` extra
`full_word_rank` calls walking backwards one word at a time. -/
def rsv5Loop (p : Pat) (v : List Bool) : Nat → Nat → Nat → Nat
  | 0, _, res => res
  | n + 1, idx, res => rsv5Loop p v n (idx - 64) (res + fullWordRank p v idx)

/-- `rank_support_v5::rank(idx)`, transcribed from `rank_support_v5.hpp`. -/
def rsv5Rank (p : Pat) (v : List Bool) (bb : List Nat) (idx : Nat) : Nat :=
  let pp := (idx >>> 10) &&& 0xFFFFFFFFFFFFFFFE
  let res := bb.getD pp 0
    + ((bb.getD (pp + 1) 0 >>> (60 - 12 * ((idx &&& 0x7FF) / (64 * 6)))) &&& 0x7FF)
    + wordRank p v idx
  let idx1 := idx - (idx &&& 0x3F)
  let toDo := ((idx1 >>> 6) &&& 0x1F) % 6
  rsv5Loop p v toDo (idx1 - 1) res

/-- Invariant of the `rank_support_v5` construction loop at the entry of
iteration `i` (`1 ≤ i ≤ nw`). -/
structure Rsv5InvP (p : Pat) (v : List Bool) (bbs i : Nat) (st : Rsv5St) : Prop where
  hj : st.j = 2 * ((i - 1) / 32)
  hcw : st.cw = (i - 1) % 32 + 1
  hc : st.carry = carryAt p v i
  hs : st.sum = ∑ jj ∈ Finset.Ico (32 * ((i - 1) / 32)) i, cword p v jj
  hl : st.slc = packedRel5 p v ((i - 1) / 32) (((i - 1) % 32) / 6)
  hlen : st.bb.length = bbs
  hsb : ∀ t, t ≤ (i - 1) / 32 → st.bb.getD (2 * t) 0 = scount p v (32 * t)
  hbl : ∀ t, t < (i - 1) / 32 → st.bb.getD (2 * t + 1) 0 = packedRel5 p v t 5
  hz : ∀ k, 2 * ((i - 1) / 32) + 1 ≤ k → st.bb.getD k 0 = 0

theorem rsv5Init_inv (p : Pat) (v : List Bool) (bbs : Nat) :
    Rsv5InvP p v bbs 1 (rsv5Init p v bbs) := by
  refine ⟨?_, ?_, ?_, ?_, ?_, ?_, ?_, ?_, ?_⟩
  · simp [rsv5Init]
  · simp [rsv5Init]
  · exact bvWord_shiftRight63 p v 0
  · show popcount (marker p (bvWord v 0) (initCarry p)) = _
    rw [show (1 : Nat) - 1 = 0 from rfl]
    norm_num [Finset.sum_Ico_eq_sum_range]
    rw [cword, carryAt, if_pos rfl]
  · simp [rsv5Init, packedRel5]
  · simp [rsv5Init]
  · intro t ht
    have ht0 : t = 0 := by omega
    subst ht0
    show (List.replicate bbs (0 : Nat)).getD 0 0 = _
    rw [getD_replicate_zero]
    simp [scount]
  · intro t ht
    omega
  · intro k _
    exact getD_replicate_zero bbs k

theorem rsv5Step_inv (p : Pat) (v : List Bool) (bbs nw i : Nat)
    (hbbs : 2 * (nw / 32) + 2 ≤ bbs)
    (st : Rsv5St) (h1 : 1 ≤ i) (hltnw : i < nw)
    (hinv : Rsv5InvP p v bbs i st) :
    Rsv5InvP p v bbs (i + 1) (rsv5Step p v st i) := by
  obtain ⟨hj, hcw, hc, hs, hl, hlen, hsb, hbl, hz⟩ := hinv
  have hmle : i / 32 ≤ nw / 32 := Nat.div_le_div_right (Nat.le_of_lt hltnw)
  by_cases hr : st.cw = 32
  · -- superblock boundary: i = 32 m
    have hi32 : (i - 1) % 32 = 31 := by omega
    set m := i / 32 with hm
    have hm1 : 1 ≤ m := by omega
    have hpq : (i - 1) / 32 = m - 1 := by omega
    have hstep : rsv5Step p v st i =
        { j := st.j + 2
          bb := ((st.bb.set (st.j + 1) st.slc).set (st.j + 2)
            ((st.bb.set (st.j + 1) st.slc).getD st.j 0 + st.sum))
          carry := bvWord v i >>> 63
          sum := popcount (marker p (bvWord v i) st.carry)
          slc := 0
          cw := 1 } := by
      simp [rsv5Step, hr]
    rw [hstep]
    have hjval : st.j = 2 * (m - 1) := by rw [hj, hpq]
    have hlen1 : (st.bb.set (st.j + 1) st.slc).length = bbs := by
      rw [List.length_set, hlen]
    have hb2m : st.j + 2 < bbs := by omega
    refine ⟨?_, ?_, ?_, ?_, ?_, ?_, ?_, ?_, ?_⟩
    · show st.j + 2 = 2 * ((i + 1 - 1) / 32)
      omega
    · show (1 : Nat) = (i + 1 - 1) % 32 + 1
      omega
    · exact bvWord_shiftRight63 p v i
    · show popcount (marker p (bvWord v i) st.carry) = _
      rw [hc, ← cword]
      have harg : 32 * ((i + 1 - 1) / 32) = i := by omega
      rw [harg, Finset.sum_Ico_succ_top (by omega), Finset.Ico_self, Finset.sum_empty,
        Nat.zero_add]
    · show (0 : Nat) = packedRel5 p v ((i + 1 - 1) / 32) (((i + 1 - 1) % 32) / 6)
      have harg : ((i + 1 - 1) % 32) / 6 = 0 := by omega
      rw [harg, packedRel5]
    · show (_ : List Nat).length = bbs
      rw [List.length_set, hlen1]
    · intro t ht
      rcases Nat.lt_or_ge t m with htlt | htge
      · have hne2 : st.j + 2 ≠ 2 * t := by omega
        have hne1 : st.j + 1 ≠ 2 * t := by omega
        show ((st.bb.set (st.j + 1) st.slc).set (st.j + 2) _).getD (2 * t) 0 = _
        rw [getD_set_ne _ _ _ _ hne2, getD_set_ne _ _ _ _ hne1]
        exact hsb t (by omega)
      · have h2t : 2 * t = st.j + 2 := by omega
        rw [h2t]
        rw [getD_set_self _ _ _ (by rw [hlen1]; omega)]
        have hne : st.j + 1 ≠ st.j := by omega
        rw [getD_set_ne _ _ _ _ hne]
        rw [hjval, hsb (m - 1) (by omega), hs, hpq]
        simp only [scount]
        rw [Finset.sum_range_add_sum_Ico _ (show 32 * (m - 1) ≤ i by omega)]
        have hit : i = 32 * t := by omega
        rw [hit]
    · intro t ht
      rcases Nat.lt_or_ge t (m - 1) with htlt | htge
      · have hne2 : st.j + 2 ≠ 2 * t + 1 := by omega
        have hne1 : st.j + 1 ≠ 2 * t + 1 := by omega
        show ((st.bb.set (st.j + 1) st.slc).set (st.j + 2) _).getD (2 * t + 1) 0 = _
        rw [getD_set_ne _ _ _ _ hne2, getD_set_ne _ _ _ _ hne1]
        exact hbl t (by omega)
      · have htm' : 2 * t + 1 = st.j + 1 := by omega
        show ((st.bb.set (st.j + 1) st.slc).set (st.j + 2) _).getD (2 * t + 1) 0 = _
        rw [htm', getD_set_ne _ _ _ _ (by omega), getD_set_self _ _ _ (by rw [hlen]; omega)]
        rw [hl, hpq, hi32]
        have htval : t = m - 1 := by omega
        rw [htval]
    · intro k hk
      have hne2 : st.j + 2 ≠ k := by omega
      have hne1 : st.j + 1 ≠ k := by omega
      show ((st.bb.set (st.j + 1) st.slc).set (st.j + 2) _).getD k 0 = 0
      rw [getD_set_ne _ _ _ _ hne2, getD_set_ne _ _ _ _ hne1]
      exact hz k (by omega)
  · by_cases hr6 : st.cw % 6 = 0
    · -- block boundary inside a superblock: pack field cw/6
      set m := i / 32 with hm
      set k := st.cw / 6 with hkdef
      have hk1 : 1 ≤ k := by omega
      have hk5 : k ≤ 5 := by omega
      have hpq : (i - 1) / 32 = m := by omega
      have hik : i = 32 * m + 6 * k := by omega
      have hstep : rsv5Step p v st i =
          { j := st.j
            bb := st.bb
            carry := bvWord v i >>> 63
            sum := st.sum + popcount (marker p (bvWord v i) st.carry)
            slc := st.slc ||| (st.sum <<< (60 - 12 * (st.cw / 6)))
            cw := st.cw + 1 } := by
        simp [rsv5Step, hr, hr6]
      rw [hstep]
      have hsum_relC : st.sum = relC5 p v m k := by
        rw [hs, hpq, relC5, hik]
      refine ⟨?_, ?_, ?_, ?_, ?_, ?_, ?_, ?_, ?_⟩
      · show st.j = 2 * ((i + 1 - 1) / 32)
        omega
      · show st.cw + 1 = (i + 1 - 1) % 32 + 1
        omega
      · exact bvWord_shiftRight63 p v i
      · show st.sum + popcount (marker p (bvWord v i) st.carry) = _
        rw [hc, ← cword, hs, hpq]
        have harg : (i + 1 - 1) / 32 = m := by omega
        rw [harg, Finset.sum_Ico_succ_top (by omega)]
      · show st.slc ||| (st.sum <<< (60 - 12 * (st.cw / 6))) = _
        have harg1 : (i + 1 - 1) / 32 = m := by omega
        have harg2 : ((i + 1 - 1) % 32) / 6 = k := by omega
        have harg3 : ((i - 1) % 32) / 6 = k - 1 := by omega
        rw [harg1, harg2, hl, hpq, harg3, hsum_relC, ← hkdef]
        exact packedRel5_or_field p v m k hk1 hk5
      · exact hlen
      · intro t ht
        apply hsb
        omega
      · intro t ht
        apply hbl
        omega
      · intro k2 hk2
        apply hz
        omega
    · -- plain word inside a block
      have hstep : rsv5Step p v st i =
          { j := st.j
            bb := st.bb
            carry := bvWord v i >>> 63
            sum := st.sum + popcount (marker p (bvWord v i) st.carry)
            slc := st.slc
            cw := st.cw + 1 } := by
        simp [rsv5Step, hr, hr6]
      rw [hstep]
      refine ⟨?_, ?_, ?_, ?_, ?_, ?_, ?_, ?_, ?_⟩
      · show st.j = 2 * ((i + 1 - 1) / 32)
        omega
      · show st.cw + 1 = (i + 1 - 1) % 32 + 1
        omega
      · exact bvWord_shiftRight63 p v i
      · show st.sum + popcount (marker p (bvWord v i) st.carry) = _
        rw [hc, ← cword, hs]
        have harg : (i + 1 - 1) / 32 = (i - 1) / 32 := by omega
        rw [harg, Finset.sum_Ico_succ_top (by omega)]
      · show st.slc = packedRel5 p v ((i + 1 - 1) / 32) (((i + 1 - 1) % 32) / 6)
        rw [hl]
        have harg1 : (i + 1 - 1) / 32 = (i - 1) / 32 := by omega
        have harg2 : ((i + 1 - 1) % 32) / 6 = ((i - 1) % 32) / 6 := by omega
        rw [harg1, harg2]
      · exact hlen
      · intro t ht
        apply hsb
        omega
      · intro t ht
        apply hbl
        omega
      · intro k2 hk2
        apply hz
        omega

theorem rsv5Fold_inv (p : Pat) (v : List Bool) (bbs nw : Nat)
    (hbbs : 2 * (nw / 32) + 2 ≤ bbs) :
    ∀ n, 1 + n ≤ nw →
      Rsv5InvP p v bbs (1 + n) ((List.range' 1 n).foldl (rsv5Step p v) (rsv5Init p v bbs)) := by
  intro n
  induction n with
  | zero =>
    intro _
    exact rsv5Init_inv p v bbs
  | succ n ih =>
    intro hle
    have hconcat : List.range' 1 (n + 1) = List.range' 1 n ++ [1 + n] :=
      List.range'_1_concat 1 n
    rw [hconcat, List.foldl_append]
    simp only [List.foldl_cons, List.foldl_nil]
    have hinv := ih (by omega)
    have hstep := rsv5Step_inv p v bbs nw (1 + n) hbbs _ (by omega) (by omega) hinv
    simpa using hstep

/-- Contents of the built `m_basic_block` of `rank_support_v5`. -/
theorem rsv5Build_spec (p : Pat) (v : List Bool) (hv : v.length ≠ 0) :
    (∀ t, t ≤ ((v.length + 63) >>> 6) / 32 →
      (rsv5Build p v).getD (2 * t) 0 = scount p v (32 * t))
    ∧ (∀ t, t ≤ ((v.length + 63) >>> 6) / 32 →
      (rsv5Build p v).getD (2 * t + 1) 0
        = packedRel5 p v t
            (if t = ((v.length + 63) >>> 6) / 32
              then (((v.length + 63) >>> 6) % 32) / 6 else 5)) := by
  set len := v.length with hlendef
  set nw := (len + 63) >>> 6 with hnwdef
  set bbs := (((len + 63) >>> 11) + 1) <<< 1 with hbbsdef
  have hnw64 : nw = (len + 63) / 64 := by
    rw [hnwdef, Nat.shiftRight_eq_div_pow]
  have hbbseq : bbs = 2 * (nw / 32) + 2 := by
    rw [hbbsdef, Nat.shiftLeft_eq, Nat.shiftRight_eq_div_pow, hnw64,
      Nat.div_div_eq_div_mul]
    norm_num
    omega
  have hnw1 : 1 ≤ nw := by
    rw [hnw64]
    have : 1 ≤ len := Nat.pos_of_ne_zero hv
    omega
  have hbuild : rsv5Build p v =
      (let st := (List.range' 1 (nw - 1)).foldl (rsv5Step p v) (rsv5Init p v bbs)
      let st1 :=
        if st.cw % 6 = 0 then
          { st with slc := st.slc ||| (st.sum <<< (60 - 12 * (st.cw / 6))) }
        else st
      if st1.cw = 32 then
        let j1 := st1.j + 2
        let bb1 := st1.bb.set (j1 - 1) st1.slc
        let bb2 := bb1.set j1 (bb1.getD (j1 - 2) 0 + st1.sum)
        bb2.set (j1 + 1) 0
      else
        st1.bb.set (st1.j + 1) st1.slc) := by
    rw [rsv5Build, if_neg hv]
  obtain ⟨hj, hcw, hc, hs, hl, hlen, hsb, hbl, hz⟩ :=
    rsv5Fold_inv p v bbs nw (by omega) (nw - 1) (by omega)
  set st := (List.range' 1 (nw - 1)).foldl (rsv5Step p v) (rsv5Init p v bbs) with hstdef
  rw [show 1 + (nw - 1) = nw by omega] at hj hcw hc hs hl hsb hbl hz
  by_cases hr : st.cw = 32
  · -- the vector ends exactly at a superblock boundary
    have hnw32 : nw % 32 = 0 := by omega
    have hm1 : 32 ≤ nw := by omega
    set m := nw / 32 with hmdef
    have hpq : (nw - 1) / 32 = m - 1 := by omega
    have hpr : (nw - 1) % 32 = 31 := by omega
    have hjval : st.j = 2 * (m - 1) := by rw [hj, hpq]
    set st1 := (if st.cw % 6 = 0 then
        { st with slc := st.slc ||| (st.sum <<< (60 - 12 * (st.cw / 6))) }
      else st) with hst1def
    have hst1eq : st1 = st := by
      rw [hst1def, if_neg (by omega)]
    rw [hbuild]
    simp only [← hstdef, ← hst1def]
    rw [hst1eq, if_pos hr]
    simp only [show st.j + 2 - 1 = st.j + 1 from rfl, show st.j + 2 - 2 = st.j from rfl]
    have hlen1 : (st.bb.set (st.j + 1) st.slc).length = bbs := by
      rw [List.length_set, hlen]
    constructor
    · intro t ht
      rcases Nat.lt_or_ge t m with htlt | htge
      · have hne3 : st.j + 2 + 1 ≠ 2 * t := by omega
        have hne2 : st.j + 2 ≠ 2 * t := by omega
        have hne1 : st.j + 1 ≠ 2 * t := by omega
        rw [getD_set_ne _ _ _ _ hne3, getD_set_ne _ _ _ _ hne2, getD_set_ne _ _ _ _ hne1]
        exact hsb t (by omega)
      · have h2t : 2 * t = st.j + 2 := by omega
        rw [h2t, getD_set_ne _ _ _ _ (by omega), getD_set_self _ _ _ (by rw [hlen1]; omega)]
        rw [getD_set_ne _ _ _ _ (show st.j + 1 ≠ st.j by omega)]
        rw [hjval, hsb (m - 1) (by omega), hs, hpq]
        simp only [scount]
        rw [Finset.sum_range_add_sum_Ico _ (show 32 * (m - 1) ≤ nw by omega)]
        have hit : nw = 32 * t := by omega
        rw [hit]
    · intro t ht
      rcases Nat.lt_or_ge t m with htlt | htge
      · rcases Nat.lt_or_ge t (m - 1) with htlt2 | htge2
        · have hne3 : st.j + 2 + 1 ≠ 2 * t + 1 := by omega
          have hne2 : st.j + 2 ≠ 2 * t + 1 := by omega
          have hne1 : st.j + 1 ≠ 2 * t + 1 := by omega
          rw [getD_set_ne _ _ _ _ hne3, getD_set_ne _ _ _ _ hne2, getD_set_ne _ _ _ _ hne1,
            hbl t (by omega), if_neg (by omega)]
        · have htm' : 2 * t + 1 = st.j + 1 := by omega
          rw [htm', getD_set_ne _ _ _ _ (by omega), getD_set_ne _ _ _ _ (by omega),
            getD_set_self _ _ _ (by rw [hlen]; omega)]
          rw [hl, hpq, hpr, if_neg (by omega)]
          have htval : t = m - 1 := by omega
          rw [htval]
      · have htm' : t = m := by omega
        subst htm'
        have hidx : 2 * m + 1 = st.j + 2 + 1 := by omega
        rw [hidx, getD_set_self _ _ _ (by
          simp only [List.length_set]
          rw [hlen]
          omega)]
        rw [if_pos rfl, hnw32, packedRel5]
  · -- the vector ends inside a superblock
    have hnw32 : nw % 32 = (nw - 1) % 32 + 1 := by omega
    set m := nw / 32 with hmdef
    have hpq : (nw - 1) / 32 = m := by omega
    have hjval : st.j = 2 * m := by rw [hj, hpq]
    have hcwval : st.cw = nw % 32 := by omega
    -- the packed word after the post-loop conditional packing
    have hslc1 : (if st.cw % 6 = 0 then
          { st with slc := st.slc ||| (st.sum <<< (60 - 12 * (st.cw / 6))) }
        else st).slc = packedRel5 p v m ((nw % 32) / 6) := by
      by_cases hr6 : st.cw % 6 = 0
      · rw [if_pos hr6]
        show st.slc ||| (st.sum <<< (60 - 12 * (st.cw / 6))) = _
        set k := st.cw / 6 with hkdef
        have hk1 : 1 ≤ k := by omega
        have hk5 : k ≤ 5 := by omega
        have hsum_relC : st.sum = relC5 p v m k := by
          rw [hs, hpq, relC5]
          have harg : nw = 32 * m + 6 * k := by omega
          rw [harg]
        have harg3 : ((nw - 1) % 32) / 6 = k - 1 := by omega
        have harg4 : (nw % 32) / 6 = k := by omega
        rw [hl, hpq, harg3, hsum_relC, harg4]
        exact packedRel5_or_field p v m k hk1 hk5
      · rw [if_neg hr6]
        show st.slc = _
        rw [hl, hpq]
        have harg : ((nw - 1) % 32) / 6 = (nw % 32) / 6 := by omega
        rw [harg]
    set st1 := (if st.cw % 6 = 0 then
        { st with slc := st.slc ||| (st.sum <<< (60 - 12 * (st.cw / 6))) }
      else st) with hst1def
    have hst1cw : st1.cw = st.cw := by
      rw [hst1def]
      split <;> rfl
    have hst1j : st1.j = st.j := by
      rw [hst1def]
      split <;> rfl
    have hst1bb : st1.bb = st.bb := by
      rw [hst1def]
      split <;> rfl
    rw [hbuild]
    simp only [← hstdef, ← hst1def]
    rw [if_neg (by rw [hst1cw]; omega)]
    rw [hst1j, hst1bb, hjval]
    constructor
    · intro t ht
      have hne1 : 2 * m + 1 ≠ 2 * t := by omega
      rw [getD_set_ne _ _ _ _ hne1]
      exact hsb t (by omega)
    · intro t ht
      rcases Nat.lt_or_ge t m with htlt | htge
      · have hne1 : 2 * m + 1 ≠ 2 * t + 1 := by omega
        rw [getD_set_ne _ _ _ _ hne1, hbl t (by omega), if_neg (by omega)]
      · have htm' : t = m := by omega
        subst htm'
        rw [getD_set_self _ _ _ (by rw [hlen]; omega)]
        rw [hslc1, if_pos rfl]

/-- The trailing while loop of `rank_support_v5::rank` sums the full-word
counts of the `n` words preceding word `a`. -/
theorem rsv5Loop_spec (p : Pat) (v : List Bool) :
    ∀ n a res, n ≤ a →
      rsv5Loop p v n (64 * a - 1) res
        = res + ∑ jj ∈ Finset.Ico (a - n) a, cword p v jj := by
  intro n
  induction n with
  | zero =>
    intro a res _
    rw [rsv5Loop, Nat.sub_zero, Finset.Ico_self, Finset.sum_empty, Nat.add_zero]
  | succ n ih =>
    intro a res hle
    have ha1 : 1 ≤ a := by omega
    rw [rsv5Loop]
    have hfw : fullWordRank p v (64 * a - 1) = cword p v (a - 1) := by
      rw [fullWordRank]
      congr 1
      omega
    have hidx : 64 * a - 1 - 64 = 64 * (a - 1) - 1 := by omega
    rw [hfw, hidx, ih (a - 1) _ (by omega)]
    rw [show Finset.Ico (a - (n + 1)) a = Finset.Ico (a - 1 - n) ((a - 1) + 1) by
      congr 1 <;> omega]
    rw [Finset.sum_Ico_succ_top (by omega)]
    omega

/-- Sparse rank correctness: `rank(idx)` of `rank_support_v5` over the built
index equals the naive scan, for every `idx` up to and including `size()`. -/
theorem rsv5Rank_eq_naive (p : Pat) (v : List Bool) (idx : Nat)
    (hlen : v.length < 2 ^ 64) (hidx : idx ≤ v.length) :
    rsv5Rank p v (rsv5Build p v) idx = naiveRank p v idx := by
  by_cases hv : v.length = 0
  · have hidx0 : idx = 0 := by omega
    subst hidx0
    rw [rsv5Build, if_pos hv]
    simp [rsv5Rank, rsv5Loop, wordRank, loSet, popcount_zero, naiveRank]
  · set len := v.length with hlendef
    set nw := (len + 63) >>> 6 with hnwdef
    have hnw64 : nw = (len + 63) / 64 := by
      rw [hnwdef, Nat.shiftRight_eq_div_pow]
    have hdivle : idx ≤ 64 * nw := by omega
    have hpp : (idx >>> 10) &&& 0xFFFFFFFFFFFFFFFE = 2 * (idx / 2048) := by
      have h10 : idx >>> 10 = idx / 1024 := by
        rw [Nat.shiftRight_eq_div_pow]
      rw [h10, land_clear_lsb (idx / 1024) (by omega), Nat.div_div_eq_div_mul]
    have hmask7FF : idx &&& 0x7FF = idx % 2048 := by
      rw [show (0x7FF : Nat) = 2 ^ 11 - 1 by norm_num, Nat.and_pow_two_sub_one_eq_mod]
    have hmask3F : idx &&& 0x3F = idx % 64 := by
      rw [show (0x3F : Nat) = 2 ^ 6 - 1 by norm_num, Nat.and_pow_two_sub_one_eq_mod]
    have hsle : idx / 2048 ≤ nw / 32 := by
      have h1 : nw / 32 = (len + 63) / 2048 := by
        rw [hnw64, Nat.div_div_eq_div_mul]
      rw [h1]
      exact Nat.div_le_div_right (by omega)
    have hb5 : (idx % 2048) / 384 ≤ 5 := by omega
    obtain ⟨hsb, hbl⟩ := rsv5Build_spec p v hv
    have hsbv := hsb (idx / 2048) hsle
    have hblv := hbl (idx / 2048) hsle
    have hT5 : (if idx / 2048 = nw / 32 then (nw % 32) / 6 else 5) ≤ 5 := by
      split <;> omega
    have hfield : (packedRel5 p v (idx / 2048)
        (if idx / 2048 = nw / 32 then (nw % 32) / 6 else 5)
        >>> (60 - 12 * ((idx % 2048) / 384))) &&& 0x7FF
          = relC5 p v (idx / 2048) ((idx % 2048) / 384) := by
      rw [packedRel5_extract p v (idx / 2048) _ ((idx % 2048) / 384) hT5 hb5]
      by_cases hb0 : (idx % 2048) / 384 = 0
      · rw [if_neg (by omega), hb0, relC5_zero]
      · rw [if_pos]
        refine ⟨by omega, ?_⟩
        split
        · next hcase => omega
        · omega
    have hdiv384 : (idx &&& 0x7FF) / (64 * 6) = (idx % 2048) / 384 := by
      rw [hmask7FF]
    have hq64 : idx - (idx &&& 0x3F) = 64 * (idx / 64) := by
      rw [hmask3F]
      omega
    have hshift6 : (64 * (idx / 64)) >>> 6 = idx / 64 := by
      rw [Nat.shiftRight_eq_div_pow]
      omega
    have hmask1F : (idx / 64) &&& 0x1F = (idx / 64) % 32 := by
      rw [show (0x1F : Nat) = 2 ^ 5 - 1 by norm_num, Nat.and_pow_two_sub_one_eq_mod]
    simp only [rsv5Rank]
    rw [hpp, hdiv384, hsbv, hblv, hfield, hq64, hshift6, hmask1F]
    rw [rsv5Loop_spec p v (idx / 64 % 32 % 6) (idx / 64) _ (by omega)]
    have hbase : idx / 64 - idx / 64 % 32 % 6
        = 32 * (idx / 2048) + 6 * ((idx % 2048) / 384) := by omega
    rw [hbase]
    have hscq : scount p v (32 * (idx / 2048) + 6 * ((idx % 2048) / 384))
        + ∑ jj ∈ Finset.Ico (32 * (idx / 2048) + 6 * ((idx % 2048) / 384)) (idx / 64),
            cword p v jj
        = scount p v (idx / 64) := by
      simp only [scount]
      rw [Finset.sum_range_add_sum_Ico _ (by omega)]
    rw [naiveRank_split p v idx]
    have hrel := scount_add_relC5 p v (idx / 2048) ((idx % 2048) / 384)
    omega

/-- C1: for every bit vector `v`, every supported pattern and both rank
variants (dense `rank_support_v`, sparse `rank_support_v5`) built over `v`,
`rank(idx)` equals the naive scan counting pattern occurrences located in the
first `idx` bits, for every `idx` in `[0, size()]` inclusive; consequently
the two variants return identical results on the same vector and pattern. -/
theorem claim_C1_rank_both_variants_eq_naive (p : Pat) (v : List Bool) (idx : Nat)
    (hlen : v.length < 2 ^ 64) (hidx : idx ≤ v.length) :
    rsvRank p v (rsvBuild p v) idx = naiveRank p v idx
    ∧ rsv5Rank p v (rsv5Build p v) idx = naiveRank p v idx
    ∧ rsvRank p v (rsvBuild p v) idx = rsv5Rank p v (rsv5Build p v) idx := by
  refine ⟨rsvRank_eq_naive p v idx hlen hidx, rsv5Rank_eq_naive p v idx hlen hidx, ?_⟩
  rw [rsvRank_eq_naive p v idx hlen hidx, rsv5Rank_eq_naive p v idx hlen hidx]

/-- C1 witness: the spec scenario vector `101101` at `idx = size() = 6`. -/
theorem claim_C1_witness :
    ([true, false, true, true, false, true] : List Bool).length < 2 ^ 64
    ∧ (6 : Nat) ≤ ([true, false, true, true, false, true] : List Bool).length
    ∧ (rsvRank Pat.p1 [true, false, true, true, false, true]
          (rsvBuild Pat.p1 [true, false, true, true, false, true]) 6
        = naiveRank Pat.p1 [true, false, true, true, false, true] 6
      ∧ rsv5Rank Pat.p1 [true, false, true, true, false, true]
          (rsv5Build Pat.p1 [true, false, true, true, false, true]) 6
        = naiveRank Pat.p1 [true, false, true, true, false, true] 6
      ∧ rsvRank Pat.p1 [true, false, true, true, false, true]
          (rsvBuild Pat.p1 [true, false, true, true, false, true]) 6
        = rsv5Rank Pat.p1 [true, false, true, true, false, true]
          (rsv5Build Pat.p1 [true, false, true, true, false, true]) 6) :=
  ⟨by decide, by decide,
    claim_C1_rank_both_variants_eq_naive Pat.p1 [true, false, true, true, false, true] 6
      (by decide) (by decide)⟩

/-! ### Select-support initial carries (`select_support.hpp`) -/

/-- `select_support_trait<t_b, 2>::init_carry(data, word_pos)`, transcribed
from `select_support.hpp`: `word_pos ? *(data - 1) >> 63 : K`, with constant
`K = 1` for the patterns `00` and `01` and `K = 0` for `10` and `11`
(1-bit patterns return 0 unconditionally). -/
def selInitCarry (p : Pat) (words : Nat → Nat) (wordPos : Nat) : Nat :=
  match p with
  | .p00 => if wordPos ≠ 0 then words (wordPos - 1) >>> 63 else 1
  | .p01 => if wordPos ≠ 0 then words (wordPos - 1) >>> 63 else 1
  | .p10 => if wordPos ≠ 0 then words (wordPos - 1) >>> 63 else 0
  | .p11 => if wordPos ≠ 0 then words (wordPos - 1) >>> 63 else 0
  | .p0 => 0
  | .p1 => 0

/-- C8: for each 2-bit pattern the initial carry of the first word is the
pattern's virtual previous bit — 1 for the difference patterns `00`,`01`,
0 for `10`,`11` — and with that carry the marker word of data word 0 locates
exactly the occurrences of the pattern at bit positions `0 ≤ k < 64` of the
vector (so the virtual bit prevents any occurrence at position 0). -/
theorem claim_C8_first_word_carry (p : Pat) (words : Nat → Nat) (v : List Bool)
    (hp : p.plen = 2) :
    selInitCarry p words 0 = initCarry p
    ∧ ((p = Pat.p00 ∨ p = Pat.p01) → selInitCarry p words 0 = 1)
    ∧ ((p = Pat.p10 ∨ p = Pat.p11) → selInitCarry p words 0 = 0)
    ∧ (∀ k, k < 64 →
        (marker p (bvWord v 0) (selInitCarry p words 0)).testBit k = occursAt p v k)
    ∧ occursAt p v 0 = false := by
  have hcarry : selInitCarry p words 0 = initCarry p := by
    cases p <;> simp [selInitCarry, initCarry]
  refine ⟨hcarry, ?_, ?_, ?_, ?_⟩
  · intro hcase
    rcases hcase with h | h <;> (subst h; simp [selInitCarry])
  · intro hcase
    rcases hcase with h | h <;> (subst h; simp [selInitCarry])
  · intro k hk
    rw [hcarry]
    have hmt := marker_testBit p v 0 k hk
    rw [show carryAt p v 0 = initCarry p by rw [carryAt, if_pos rfl]] at hmt
    rw [hmt]
    congr 1
    omega
  · cases p <;> simp_all [occursAt, Pat.plen]

/-- C8 witness: the pattern `01` with an arbitrary word array. -/
theorem claim_C8_witness :
    Pat.plen Pat.p01 = 2
    ∧ (selInitCarry Pat.p01 (fun _ => 0) 0 = initCarry Pat.p01
      ∧ ((Pat.p01 = Pat.p00 ∨ Pat.p01 = Pat.p01) → selInitCarry Pat.p01 (fun _ => 0) 0 = 1)
      ∧ ((Pat.p01 = Pat.p10 ∨ Pat.p01 = Pat.p11) → selInitCarry Pat.p01 (fun _ => 0) 0 = 0)
      ∧ (∀ k, k < 64 →
          (marker Pat.p01 (bvWord [true] 0) (selInitCarry Pat.p01 (fun _ => 0) 0)).testBit k
            = occursAt Pat.p01 [true] k)
      ∧ occursAt Pat.p01 [true] 0 = false) :=
  ⟨by decide, claim_C8_first_word_carry Pat.p01 (fun _ => 0) [true] (by decide)⟩

/-! ## The `int_vector` container (`int_vector.hpp`, `memory_management.hpp`)

The vector state is the quadruple of members of `int_vector<t_width>`:
`m_size` (bits), `m_capacity` (bits), `m_data` (null pointer or an
allocation of 64-bit words) and `m_width`.  The template parameter
`t_width` is passed explicitly to the operations that depend on it. -/

/-- The members of an `int_vector<t_width>` (`int_vector.hpp`, line 289-292):
`m_size` and `m_capacity` count bits, `m_data` is `none` for a null pointer
and otherwise the list of allocated 64-bit words, `m_width` is the element
width. -/
structure IVec : Type where
  size : Nat
  capacity : Nat
  data : Option (List Nat)
  width : Nat
deriving DecidableEq

/-- The allocated words behind `m_data` (`[]` for a null pointer). -/
def wordsOf (v : IVec) : List Nat := v.data.getD []

/-- `int_vector::size()`: number of elements, `m_size / m_width`
(`int_vector.hpp`, lines 1523-1556; the fixed-width specializations shift
by `log2` of the width, which is the same division). -/
def sizeElems (v : IVec) : Nat := v.size / v.width

/-- `int_vector::capacity()`: element capacity, `m_capacity / m_width`
(`int_vector.hpp`, lines 1560-1592). -/
def capacityElems (v : IVec) : Nat := v.capacity / v.width

/-- Modelled from the spec: reading bit `i` of the packed 64-bit word array
(`bits.hpp` is not under `src/`); bit `i` lives in word `i / 64` at in-word
position `i % 64`, least significant bit first. -/
def bitGet (ws : List Nat) (i : Nat) : Bool :=
  (ws.getD (i / 64) 0).testBit (i % 64)

/-- Set bit `k` of the word `w` to `b` (flip it with xor exactly when it
differs). -/
def writeBitW (w k : Nat) (b : Bool) : Nat :=
  if w.testBit k = b then w else w ^^^ 2 ^ k

/-- Modelled from the spec: writing bit `i` of the packed word array
(`bits.hpp` is not under `src/`). -/
def writeBit (ws : List Nat) (i : Nat) (b : Bool) : List Nat :=
  ws.set (i / 64) (writeBitW (ws.getD (i / 64) 0) (i % 64) b)

/-- Modelled from the spec: `bits::write_int` (`bits.hpp` is not under
`src/`) stores the `len` low bits of `x` at bit positions
`idx, idx+1, ..., idx+len-1`, least significant bit first. -/
def writeInt (ws : List Nat) (idx x : Nat) : Nat → List Nat
  | 0 => ws
  | len + 1 => writeInt (writeBit ws idx (x.testBit 0)) (idx + 1) (x / 2) len

/-- Modelled from the spec: `bits::read_int` (`bits.hpp` is not under
`src/`) reads the integer stored at bit positions `idx, ..., idx+len-1`,
least significant bit first. -/
def readInt (ws : List Nat) (idx : Nat) : Nat → Nat
  | 0 => 0
  | len + 1 => (if bitGet ws idx then 1 else 0) + 2 * readInt ws (idx + 1) len

theorem testBit_writeBitW (w k : Nat) (b : Bool) (j : Nat) :
    (writeBitW w k b).testBit j = if j = k then b else w.testBit j := by
  unfold writeBitW
  by_cases h : w.testBit k = b
  · rw [if_pos h]
    by_cases hj : j = k
    · subst hj; rw [if_pos rfl, h]
    · rw [if_neg hj]
  · rw [if_neg h, Nat.testBit_xor, Nat.testBit_two_pow]
    by_cases hj : j = k
    · subst hj
      rw [if_pos rfl]
      cases b <;> cases hw : w.testBit j <;> simp_all
    · have hkj : ¬ k = j := fun hh => hj hh.symm
      rw [if_neg hj, show decide (k = j) = false from by simp [hkj], Bool.xor_false]

theorem length_writeBit (ws : List Nat) (i : Nat) (b : Bool) :
    (writeBit ws i b).length = ws.length := by
  simp [writeBit]

theorem bitGet_writeBit (ws : List Nat) (i : Nat) (b : Bool) (j : Nat)
    (h : i / 64 < ws.length) :
    bitGet (writeBit ws i b) j = if j = i then b else bitGet ws j := by
  unfold bitGet writeBit
  by_cases hw : j / 64 = i / 64
  · rw [hw, getD_set_self _ _ _ h, testBit_writeBitW]
    by_cases hji : j = i
    · subst hji; simp
    · have : ¬ j % 64 = i % 64 := by
        intro hmod; exact hji (by omega)
      rw [if_neg this, if_neg hji]
  · rw [getD_set_ne _ _ _ _ (fun hh => hw hh.symm)]
    have hji : ¬ j = i := by intro hh; exact hw (by rw [hh])
    rw [if_neg hji]

theorem length_writeInt (ws : List Nat) (idx x len : Nat) :
    (writeInt ws idx x len).length = ws.length := by
  induction len generalizing ws idx x with
  | zero => rfl
  | succ n ih => rw [writeInt, ih, length_writeBit]

theorem bitGet_writeInt (ws : List Nat) (idx x len : Nat) (j : Nat)
    (hb : idx + len ≤ 64 * ws.length) :
    bitGet (writeInt ws idx x len) j =
      if idx ≤ j ∧ j < idx + len then x.testBit (j - idx) else bitGet ws j := by
  induction len generalizing ws idx x with
  | zero =>
    rw [writeInt]
    have : ¬ (idx ≤ j ∧ j < idx + 0) := by omega
    rw [if_neg this]
  | succ n ih =>
    rw [writeInt]
    have hlen : (writeBit ws idx (x.testBit 0)).length = ws.length := length_writeBit ..
    have hidx : idx / 64 < ws.length := by omega
    rw [ih _ _ _ (by omega)]
    by_cases hcur : idx + 1 ≤ j ∧ j < idx + 1 + n
    · rw [if_pos hcur, if_pos (by omega)]
      have : j - idx = (j - (idx + 1)) + 1 := by omega
      rw [this, ← Nat.testBit_div_two]
    · rw [if_neg hcur, bitGet_writeBit _ _ _ _ hidx]
      by_cases hj : j = idx
      · subst hj
        rw [if_pos rfl, if_pos (by omega)]
        simp
      · rw [if_neg hj, if_neg (by omega)]

/-- A packed-integer write does not touch words at or above index `m` as
soon as the written range ends at or before bit `64 * m`. -/
theorem getD_writeInt_high (ws : List Nat) (idx x len m : Nat)
    (h : idx + len ≤ 64 * m) :
    (writeInt ws idx x len).getD m 0 = ws.getD m 0 := by
  induction len generalizing ws idx x with
  | zero => rfl
  | succ n ih =>
    rw [writeInt, ih _ _ _ (by omega)]
    unfold writeBit
    exact getD_set_ne _ _ _ _ (by omega)

theorem natOfBits_congr (f g : Nat → Bool) (n : Nat)
    (h : ∀ k, k < n → f k = g k) : natOfBits f n = natOfBits g n := by
  induction n generalizing f g with
  | zero => rfl
  | succ m ih =>
    rw [natOfBits, natOfBits, h 0 (by omega),
      ih (fun i => f (i + 1)) (fun i => g (i + 1)) (fun k hk => h (k + 1) (by omega))]

theorem readInt_eq_natOfBits (ws : List Nat) (idx len : Nat) :
    readInt ws idx len = natOfBits (fun k => bitGet ws (idx + k)) len := by
  induction len generalizing idx with
  | zero => rfl
  | succ n ih =>
    simp only [readInt, natOfBits, ih, Nat.add_zero]
    have hc : natOfBits (fun k => bitGet ws (idx + 1 + k)) n
        = natOfBits (fun i => bitGet ws (idx + (i + 1))) n :=
      natOfBits_congr _ _ _ (fun k _ => congrArg (bitGet ws) (by omega))
    rw [hc]

theorem natOfBits_testBit (x n : Nat) :
    natOfBits (fun k => x.testBit k) n = x % 2 ^ n := by
  apply Nat.eq_of_testBit_eq
  intro j
  rw [testBit_natOfBits, Nat.testBit_mod_two_pow]

/-- Reading back an exactly-written field returns the value modulo the
field width. -/
theorem readInt_writeInt (ws : List Nat) (idx x len : Nat)
    (hb : idx + len ≤ 64 * ws.length) :
    readInt (writeInt ws idx x len) idx len = x % 2 ^ len := by
  rw [readInt_eq_natOfBits, ← natOfBits_testBit x len]
  apply natOfBits_congr
  intro k hk
  rw [bitGet_writeInt _ _ _ _ _ hb, if_pos (by omega)]
  congr 1
  omega

theorem readInt_congr (ws ws' : List Nat) (idx len : Nat)
    (h : ∀ k, k < len → bitGet ws (idx + k) = bitGet ws' (idx + k)) :
    readInt ws idx len = readInt ws' idx len := by
  rw [readInt_eq_natOfBits, readInt_eq_natOfBits]
  exact natOfBits_congr _ _ _ (fun k hk => h k hk)

/-! ### Memory manager and resizing (`memory_management.hpp`, `int_vector.hpp`) -/

/-- `realloc`: the first `min(old length, n)` words are preserved, the rest
of the `n` fresh words carry arbitrary heap contents, modelled by the
parameter `junk` (reduced mod `2^64` since words are `uint64_t`). -/
def reallocWords (old : List Nat) (n : Nat) (junk : List Nat) : List Nat :=
  (List.range n).map fun i =>
    if i < old.length then old.getD i 0 else junk.getD (i - old.length) 0 % 2 ^ 64

/-- `memory_manager::resize(v, size)` (`memory_management.hpp`, lines
79-111), transcribed step by step: byte counts are computed from the old
`m_size` and the request, `m_size` is assigned the request *before* the
reallocation, a reallocation happens iff the byte count changed or
`m_data` was null, the allocation is `((size + 64) >> 6) << 3` bytes,
on realloc failure `std::bad_alloc` is thrown (second component `true`)
with `m_data` left null, otherwise the range
`[bit_size(), capacity())` is zero-filled (note the source compares bits
with the *element* capacity here) and, when `m_size` is a multiple of 64,
the word at index `m_size / 64` is zeroed.  `m_capacity` is never
assigned.  `allocOk` models whether `realloc_mem` succeeds and `junk`
the contents of fresh memory. -/
def mmResize (v : IVec) (size : Nat) (allocOk : Bool) (junk : List Nat) : IVec × Bool :=
  let oldBytes := ((v.size + 63) >>> 6) <<< 3
  let newBytes := ((size + 63) >>> 6) <<< 3
  let doRealloc := oldBytes ≠ newBytes
  let v1 : IVec := { v with size := size }
  if doRealloc ∨ v1.data = none then
    let allocBytes := ((size + 64) >>> 6) <<< 3
    let newData : Option (List Nat) :=
      if allocOk then some (reallocWords (wordsOf v1) (allocBytes >>> 3) junk) else none
    let v2 : IVec := { v1 with data := newData }
    if allocBytes ≠ 0 ∧ v2.data = none then (v2, true)
    else
      let v3 : IVec :=
        if v2.size < capacityElems v2 then
          { v2 with data := some (writeInt (wordsOf v2) v2.size 0 ((capacityElems v2 - v2.size) % 256)) }
        else v2
      let v4 : IVec :=
        if v3.size % 64 = 0 then { v3 with data := some ((wordsOf v3).set (v3.size / 64) 0) }
        else v3
      (v4, false)
  else (v1, false)

/-- `int_vector::bit_resize(size)` (`int_vector.hpp`, lines 1470-1479):
call `memory_manager::resize` only when the request exceeds `m_capacity`,
then set `m_size` (on `bad_alloc` the exception propagates before the
final assignment, but `memory_manager::resize` has set `m_size` already). -/
def bitResize (v : IVec) (size : Nat) (allocOk : Bool) (junk : List Nat) : IVec × Bool :=
  if size > v.capacity then
    match mmResize v size allocOk junk with
    | (v1, true) => (v1, true)
    | (v1, false) => ({ v1 with size := size }, false)
  else ({ v with size := size }, false)

/-- Helper loop: write the `w`-bit value `k` into the `cnt` consecutive
elements starting at element index `start`. -/
def setElemsFromAux (w k : Nat) : Nat → Nat → List Nat → List Nat
  | _, 0, ws => ws
  | start, cnt + 1, ws => setElemsFromAux w k (start + 1) cnt (writeInt ws (start * w) k w)

/-- Modelled from the spec: `util::set_to_value(v, k, it)` (`util.hpp` is
not under `src/`) writes the value `k` into every element from the
iterator position `it` (an element index) up to `v.end()`, through the
`width()`-bit element proxies; it returns immediately on an empty
vector. -/
def setToValueIt (v : IVec) (k : Nat) (start : Nat) : IVec :=
  if v.size = 0 then v
  else { v with data := some (setElemsFromAux v.width k start (sizeElems v - start) (wordsOf v)) }

/-- Zero the first `n` words of an allocation. -/
def zeroFill (ws : List Nat) (n : Nat) : List Nat :=
  (List.range ws.length).map fun i => if i < n then 0 else ws.getD i 0

/-- Modelled from the spec: `util::set_to_value(v, k)` (`util.hpp` is not
under `src/`) fills the whole vector with the value `k`; for `k = 0` the
fill is a word-level zero-fill of all `bit_data_size()` words, otherwise
each element is written; it returns immediately on an empty vector. -/
def setToValueAll (v : IVec) (k : Nat) : IVec :=
  if v.size = 0 then v
  else if k = 0 then { v with data := some (zeroFill (wordsOf v) ((v.size + 63) >>> 6)) }
  else setToValueIt v k 0

/-- `int_vector::bit_resize(size, value)` (`int_vector.hpp`, lines
1481-1488): remember the old size, `bit_resize(size)`, then
`util::set_to_value(*this, value, begin() + old_size / m_width)`. -/
def bitResizeFill (v : IVec) (size value : Nat) (allocOk : Bool) (junk : List Nat) :
    IVec × Bool :=
  let oldSize := v.size
  match bitResize v size allocOk junk with
  | (v1, true) => (v1, true)
  | (v1, false) => (setToValueIt v1 value (oldSize / v1.width), false)

/-- `int_vector::resize(size, value)` (`int_vector.hpp`, lines 549-555):
`bit_resize(size * m_width, value)`; `resize(size)` is `resize(size, 0)`. -/
def resizeIV (v : IVec) (n value : Nat) (allocOk : Bool) (junk : List Nat) : IVec × Bool :=
  bitResizeFill v (n * v.width) value allocOk junk

/-- `int_vector::assign(size, default_value)` (`int_vector.hpp`, lines
493-497): `resize(size)` then `util::set_to_value(*this, default_value)`. -/
def assignIV (v : IVec) (n default : Nat) (allocOk : Bool) (junk : List Nat) : IVec × Bool :=
  match resizeIV v n 0 allocOk junk with
  | (v1, true) => (v1, true)
  | (v1, false) => (setToValueAll v1 default, false)

/-- `int_vector_trait<t_width>::set_width(new_width, width)`
(`int_vector.hpp`, lines 121-129): only for `t_width = 0` is the width
assigned — clamped into `[1, 64]`, with out-of-range requests mapped to 64;
the fixed-width specializations leave it unchanged. -/
def setWidthFn (tw newWidth oldWidth : Nat) : Nat :=
  if tw = 0 then (if 0 < newWidth ∧ newWidth ≤ 64 then newWidth else 64) else oldWidth

/-- `int_vector::width(new_width)` (`int_vector.hpp`, line 630). -/
def widthSet (tw : Nat) (v : IVec) (w : Nat) : IVec :=
  { v with width := setWidthFn tw w v.width }

/-- The constructor `int_vector<t_width>(size, default_value, int_width)`
(`int_vector.hpp`, lines 1404-1410): members start as
`m_size = 0, m_capacity = 0, m_data = nullptr, m_width = t_width`, then
`width(int_width)` and `assign(size, default_value)`. -/
def constructIV (tw size default intWidth : Nat) (allocOk : Bool) (junk : List Nat) :
    IVec × Bool :=
  let v0 : IVec := { size := 0, capacity := 0, data := none, width := setWidthFn tw intWidth tw }
  assignIV v0 size default allocOk junk

/-- The default-constructed `int_vector<t_width>()` (`= int_vector(0, 0, t_width)`). -/
def defaultIV (tw : Nat) : IVec := (constructIV tw 0 0 tw true []).1

/-- Smallest `k` with `3^k ≥ q · 2^k`, i.e. with `1.5^k ≥ q`, computed
with fuel `q` (ample, since `1.5^q ≥ q`); this is the exact-real value of
`ceil(log(q) / log(1.5))` computed by `amortized_resize` for integer
`q ≥ 1`. -/
def growKGo (q : Nat) : Nat → Nat → Nat
  | 0, k => k
  | fuel + 1, k => if q * 2 ^ k ≤ 3 ^ k then k else growKGo q fuel (k + 1)

def growK (q : Nat) : Nat := growKGo q q 0

/-- `int_vector::amortized_resize(size)` (`int_vector.hpp`, lines
302-314): when `size * m_width` exceeds `m_capacity` (or `m_data` is
null), grow through `memory_manager::resize` to
`ceil(tmp_capacity * 1.5^k)` where `tmp_capacity` is `m_capacity` (64 if
zero) and `k` is the smallest exponent making that fit; then set
`m_size`.  `ceil(tmp * 1.5^k)` is `(tmp * 3^k + 2^k - 1) / 2^k`. -/
def amortizedResize (v : IVec) (size : Nat) (allocOk : Bool) (junk : List Nat) :
    IVec × Bool :=
  let bitSize := size * v.width
  if bitSize > v.capacity ∨ v.data = none then
    let tmpCapacity := if v.capacity = 0 then 64 else v.capacity
    let q := (bitSize + tmpCapacity - 1) / tmpCapacity
    let k := growK q
    let newCapacity := (tmpCapacity * 3 ^ k + 2 ^ k - 1) / 2 ^ k
    match mmResize v newCapacity allocOk junk with
    | (v1, true) => (v1, true)
    | (v1, false) => ({ v1 with size := bitSize }, false)
  else ({ v with size := bitSize }, false)

/-- Writing element `i` through the `operator[]` proxy reference
(`int_vector.hpp`, lines 1595-1632): `bits::write_int` of `m_width` bits
at bit position `i * m_width`. -/
def setElem (v : IVec) (i x : Nat) : IVec :=
  { v with data := some (writeInt (wordsOf v) (i * v.width) x v.width) }

/-- Reading element `i` through `operator[]` (`int_vector.hpp`, lines
1635-1682): `bits::read_int` of `m_width` bits at bit position
`i * m_width`. -/
def getElemIV (v : IVec) (i : Nat) : Nat :=
  readInt (wordsOf v) (i * v.width) v.width

/-- `int_vector::push_back(value)` (`int_vector.hpp`, lines 471-475):
`amortized_resize(size() + 1)` then `*(end() - 1) = value`. -/
def pushBack (v : IVec) (value : Nat) (allocOk : Bool) (junk : List Nat) : IVec × Bool :=
  match amortizedResize v (sizeElems v + 1) allocOk junk with
  | (v1, true) => (v1, true)
  | (v1, false) => (setElem v1 (sizeElems v1 - 1) value, false)

/-- `int_vector::flip()` (`int_vector.hpp`, lines 776-784, `t_width = 1`):
complement all `bit_data_size()` words if the vector is non-empty. -/
def flipIV (v : IVec) : IVec :=
  if v.size = 0 then v
  else { v with
    data := some ((List.range (wordsOf v).length).map fun i =>
      if i < (v.size + 63) >>> 6 then compl64 ((wordsOf v).getD i 0) else (wordsOf v).getD i 0) }

/-! ### Serialization (`int_vector.hpp`, `write_header`/`read_header`,
`serialize`/`load`) -/

/-- `int_vector::serialize` (`int_vector.hpp`, lines 1767-1776): one
header word `write_header(m_size, m_width)` — that is
`(m_width << 56) | m_size`, the *bit* length in the low 56 bits (lines
806-816) — followed by `write_data`, the first `bit_data_size()`
allocated words (lines 1751-1765; the fixed-size chunking does not
change the written words). -/
def serializeIV (v : IVec) : List Nat :=
  ((v.width <<< 56) ||| v.size)
    :: (List.range ((v.size + 63) >>> 6)).map fun i => (wordsOf v).getD i 0

/-- `int_vector::load` (`int_vector.hpp`, lines 1778-1793) together with
`read_header` (lines 787-803): read the header word, split it into the
size (low 56 bits) and the stored width (high 8 bits, a `uint8_t`); only
for `t_width = 0` does `m_width` take the stored width, and a warning is
printed iff `t_width > 0` differs from the stored width (third result
component).  Then `bit_resize(size)` and read `bit_data_size()` words
from the stream into `m_data`.  The second result component is the
`bad_alloc` flag of `bit_resize`. -/
def loadIV (tw : Nat) (v : IVec) (stream : List Nat) (allocOk : Bool) (junk : List Nat) :
    IVec × Bool × Bool :=
  let header := stream.headD 0
  let size := header &&& loSet 56
  let readIntWidth := (header >>> 56) % 256
  let warned := decide (0 < tw ∧ tw ≠ readIntWidth)
  let v1 : IVec := { v with width := if tw = 0 then readIntWidth else v.width }
  match bitResize v1 size allocOk junk with
  | (v2, true) => (v2, true, warned)
  | (v2, false) =>
    let n := (v2.size + 63) >>> 6
    let v3 : IVec :=
      { v2 with
        data := v2.data.map fun ws => (List.range ws.length).map fun i =>
          if i < n then stream.getD (1 + i) 0 else ws.getD i 0 }
    (v3, false, warned)

/-! ### Claims about `int_vector` -/

/-- C10: for `t_width = 0` the member `width(w)` sets the element width to
`w` when `1 ≤ w ≤ 64` and clamps it to 64 when `w = 0` or `w > 64`; for
every fixed width `t_width ≠ 0` the call leaves the vector unchanged
(`int_vector_trait::set_width`, `int_vector.hpp` lines 121-129). -/
theorem claim_C10_width_clamp (tw w : Nat) (v : IVec) :
    (tw = 0 → ((1 ≤ w ∧ w ≤ 64) → (widthSet tw v w).width = w)
      ∧ ((w = 0 ∨ 64 < w) → (widthSet tw v w).width = 64))
    ∧ (tw ≠ 0 → widthSet tw v w = v) := by
  constructor
  · intro h0
    constructor
    · intro hw
      unfold widthSet setWidthFn
      rw [if_pos h0, if_pos (by omega)]
    · intro hw
      unfold widthSet setWidthFn
      rw [if_pos h0, if_neg (by omega)]
  · intro h
    unfold widthSet setWidthFn
    rw [if_neg h]

/-- C10 witness: runtime-width calls with `w = 33`, `w = 70` and `w = 0`,
and a fixed-width `int_vector<8>` call. -/
theorem claim_C10_witness :
    (widthSet 0 ⟨0, 0, none, 64⟩ 33).width = 33
    ∧ (widthSet 0 ⟨0, 0, none, 64⟩ 70).width = 64
    ∧ (widthSet 0 ⟨0, 0, none, 64⟩ 0).width = 64
    ∧ widthSet 8 ⟨0, 0, none, 8⟩ 33 = ⟨0, 0, none, 8⟩ :=
  ⟨((claim_C10_width_clamp 0 33 ⟨0, 0, none, 64⟩).1 rfl).1 (by omega),
   ((claim_C10_width_clamp 0 70 ⟨0, 0, none, 64⟩).1 rfl).2 (by omega),
   ((claim_C10_width_clamp 0 0 ⟨0, 0, none, 64⟩).1 rfl).2 (by omega),
   (claim_C10_width_clamp 8 33 ⟨0, 0, none, 8⟩).2 (by omega)⟩

/-- C4 is violated by the code: `memory_manager::resize`
(`memory_management.hpp`, lines 79-111) updates `v.m_size` and
reallocates `v.m_data` but never assigns `v.m_capacity`, so `m_capacity`
stays 0 in every reachable state and `capacity() >= size()` fails after
the very first element is created: `bit_vector v(1, 1)` has
`capacity() = 0 < 1 = size()`, and a single `push_back` on an empty
`int_vector<64>` likewise ends with `m_capacity = 0 < 64 = m_size`. -/
theorem claim_C4_capacity_ge_size_violated :
    capacityElems (constructIV 1 1 1 1 true [0]).1
        < sizeElems (constructIV 1 1 1 1 true [0]).1
    ∧ ((constructIV 1 1 1 1 true [0]).1).capacity = 0
    ∧ ((constructIV 1 1 1 1 true [0]).1).size = 1
    ∧ ((pushBack (defaultIV 64) 11 true [0]).1).capacity
        < ((pushBack (defaultIV 64) 11 true [0]).1).size := by decide

/-- C7 counterexample: for `int_vector<8> v(1, 5)` (one element of width
8) the serialized header is `(8 << 56) | 8` — the low 56 bits hold the
*bit* length `m_size = 8`, not the element count 1 as the claim states
(`serialize` passes `m_size` to `write_header`, `int_vector.hpp` line
1772). -/
theorem claim_C7_counterexample :
    (serializeIV (constructIV 8 1 5 8 true [0]).1).headD 0 ≠ ((8 <<< 56) ||| 1)
    ∧ (serializeIV (constructIV 8 1 5 8 true [0]).1).headD 0 = ((8 <<< 56) ||| 8)
    ∧ sizeElems (constructIV 8 1 5 8 true [0]).1 = 1 := by decide

set_option maxRecDepth 100000 in
/-- C2 counterexample: `bit_vector v(100, 0)` allocates 2 words; a
subsequent `resize(128)` keeps the same byte count, so
`memory_manager::resize` performs no reallocation and no zeroing — the
vector ends with bit length 128 (a multiple of 64) but its allocation has
only `128 / 64 = 2` words, i.e. there is no allocated trailing padding
word beyond the length at all (rank at `idx = size()` would read past the
allocation). -/
theorem claim_C2_counterexample :
    (resizeIV (constructIV 1 100 0 1 true [0, 0]).1 128 0 true []).2 = false
    ∧ ((resizeIV (constructIV 1 100 0 1 true [0, 0]).1 128 0 true []).1).size % 64 = 0
    ∧ (wordsOf ((resizeIV (constructIV 1 100 0 1 true [0, 0]).1 128 0 true []).1)).length
        ≤ ((resizeIV (constructIV 1 100 0 1 true [0, 0]).1 128 0 true []).1).size / 64 := by
  decide

set_option maxRecDepth 100000 in
/-- C3 counterexample: growing an empty `bit_vector` with `resize(100)`
would, per the claim, reallocate to the smallest `64 · 1.5^k ≥ 100`,
i.e. a bit capacity of 144 (3 words); in the code `resize` calls
`bit_resize`, which requests exactly 100 bits from
`memory_manager::resize` — the allocation is exactly
`⌊100/64⌋ + 1 = 2` words and `m_capacity` remains 0, not 144 (the
`1.5^k` policy lives only in `amortized_resize`). -/
theorem claim_C3_counterexample :
    (resizeIV (constructIV 1 0 0 1 true []).1 100 0 true [0, 0]).2 = false
    ∧ ((resizeIV (constructIV 1 0 0 1 true []).1 100 0 true [0, 0]).1).capacity = 0
    ∧ ((resizeIV (constructIV 1 0 0 1 true []).1 100 0 true [0, 0]).1).capacity ≠ 144
    ∧ (wordsOf ((resizeIV (constructIV 1 0 0 1 true []).1 100 0 true [0, 0]).1)).length = 2 := by
  decide

/-- C5 counterexample: on `bit_vector v(64, 0)`, a growing `resize(128)`
whose reallocation fails throws `bad_alloc` but does *not* leave the
vector unchanged: `memory_manager::resize` has already set `m_size` to
the requested 128 bits and nulled `m_data` (the old 64-bit contents are
lost) — there is no allocate-then-swap discipline. -/
theorem claim_C5_counterexample :
    (resizeIV (constructIV 1 64 0 1 true [0]).1 128 0 false []).2 = true
    ∧ ((resizeIV (constructIV 1 64 0 1 true [0]).1 128 0 false []).1).size = 128
    ∧ ((constructIV 1 64 0 1 true [0]).1).size = 64
    ∧ ((resizeIV (constructIV 1 64 0 1 true [0]).1 128 0 false []).1).data = none
    ∧ ((constructIV 1 64 0 1 true [0]).1).data = some [0, 0] := by decide

/-! ### Helper lemmas for the `int_vector` claims -/

theorem getD_range_map (f : Nat → Nat) (n i : Nat) :
    ((List.range n).map f).getD i 0 = if i < n then f i else 0 := by
  by_cases h : i < n
  · rw [if_pos h, List.getD_eq_getElem?_getD, List.getElem?_map, List.getElem?_range h]
    rfl
  · rw [if_neg h, List.getD_eq_getElem?_getD, List.getElem?_eq_none]
    · rfl
    · simpa using h

theorem length_range_map (f : Nat → Nat) (n : Nat) :
    ((List.range n).map f).length = n := by
  rw [List.length_map, List.length_range]

theorem length_reallocWords (old : List Nat) (n : Nat) (junk : List Nat) :
    (reallocWords old n junk).length = n := length_range_map _ _

theorem length_zeroFill (ws : List Nat) (n : Nat) :
    (zeroFill ws n).length = ws.length := length_range_map _ _

/-- Splitting the serialization header `(w << 56) | s`. -/
theorem header_split (w s : Nat) (hw : w < 256) (hs : s < 2 ^ 56) :
    ((w <<< 56) ||| s) = w * 2 ^ 56 + s
    ∧ ((w <<< 56) ||| s) &&& loSet 56 = s
    ∧ ((w <<< 56) ||| s) >>> 56 = w := by
  have hsh : w <<< 56 = w * 2 ^ 56 := by rw [Nat.shiftLeft_eq]
  have hdvd : 2 ^ 56 ∣ w * 2 ^ 56 := Dvd.intro_left w rfl
  have hor : (w <<< 56) ||| s = w * 2 ^ 56 + s := by
    rw [hsh]; exact lor_eq_add_of_dvd _ _ _ hdvd hs
  refine ⟨hor, ?_, ?_⟩
  · rw [hor, land_loSet]
    have hp : (0:Nat) < 2 ^ 56 := by positivity
    rw [Nat.mul_comm, Nat.mul_add_mod, Nat.mod_eq_of_lt hs]
  · rw [hor, Nat.shiftRight_eq_div_pow, Nat.mul_comm,
      Nat.mul_add_div (by positivity), Nat.div_eq_of_lt hs]
    omega

theorem length_setElemsFromAux (w k start cnt : Nat) (ws : List Nat) :
    (setElemsFromAux w k start cnt ws).length = ws.length := by
  induction cnt generalizing start ws with
  | zero => rfl
  | succ c ih => rw [setElemsFromAux, ih, length_writeInt]

theorem bitGet_setElemsFromAux (w k start cnt : Nat) (ws : List Nat) (j : Nat)
    (hb : (start + cnt) * w ≤ 64 * ws.length) :
    bitGet (setElemsFromAux w k start cnt ws) j =
      if start * w ≤ j ∧ j < (start + cnt) * w then k.testBit (j % w) else bitGet ws j := by
  induction cnt generalizing start ws with
  | zero =>
    rw [setElemsFromAux]
    simp only [Nat.add_zero]
    rw [if_neg (by omega)]
  | succ c ih =>
    rw [setElemsFromAux]
    have e1 : (start + 1) * w = start * w + w := by ring
    have e2 : (start + 1 + c) * w = start * w + w + c * w := by ring
    have e3 : (start + (c + 1)) * w = start * w + w + c * w := by ring
    have hb' : (start + 1 + c) * w ≤ 64 * (writeInt ws (start * w) k w).length := by
      rw [length_writeInt, e2]
      omega
    rw [ih _ _ hb']
    by_cases hrec : (start + 1) * w ≤ j ∧ j < (start + 1 + c) * w
    · rw [if_pos hrec, if_pos (by rw [e3]; omega)]
    · rw [if_neg hrec,
        bitGet_writeInt _ _ _ _ _ (by rw [e3] at hb; omega)]
      by_cases hcur : start * w ≤ j ∧ j < start * w + w
      · rw [if_pos hcur, if_pos (by rw [e3]; omega)]
        have ht : j % w = j - start * w := by
          have h2 : j = start * w + (j - start * w) := by omega
          calc j % w = (w * start + (j - start * w)) % w := by
                rw [Nat.mul_comm w start, ← h2]
            _ = (j - start * w) % w := by rw [Nat.mul_add_mod]
            _ = j - start * w := Nat.mod_eq_of_lt (by omega)
        rw [ht]
      · rw [if_neg hcur, if_neg (by rw [e3]; omega)]

theorem getD_setElemsFromAux_high (w k start cnt : Nat) (ws : List Nat) (m : Nat)
    (h : (start + cnt) * w ≤ 64 * m) :
    (setElemsFromAux w k start cnt ws).getD m 0 = ws.getD m 0 := by
  induction cnt generalizing start ws with
  | zero => rfl
  | succ c ih =>
    have e2 : (start + 1 + c) * w = (start + (c + 1)) * w := by ring
    have e3 : (start + (c + 1)) * w = start * w + w + c * w := by ring
    rw [setElemsFromAux, ih _ _ (by rw [e2]; exact h),
      getD_writeInt_high _ _ _ _ _ (by rw [e3] at h; omega)]

/-- Reading back any element of the range written by the fill loop. -/
theorem getElem_setElemsFromAux (w k start cnt : Nat) (ws : List Nat) (i : Nat)
    (hb : (start + cnt) * w ≤ 64 * ws.length)
    (hi1 : start ≤ i) (hi2 : i < start + cnt) :
    readInt (setElemsFromAux w k start cnt ws) (i * w) w = k % 2 ^ w := by
  rw [readInt_eq_natOfBits, ← natOfBits_testBit k w]
  apply natOfBits_congr
  intro t ht
  have hm1 : start * w ≤ i * w := Nat.mul_le_mul_right w hi1
  have hm2 : (i + 1) * w ≤ (start + cnt) * w := Nat.mul_le_mul_right w hi2
  have e1 : (i + 1) * w = i * w + w := by ring
  rw [bitGet_setElemsFromAux _ _ _ _ _ _ hb, if_pos (by omega)]
  have ht2 : (i * w + t) % w = t := by
    rw [Nat.mul_comm i w, Nat.mul_add_mod]
    exact Nat.mod_eq_of_lt ht
  rw [ht2]

/-- Behaviour of a successful `bit_resize(s)` from a state with
`m_capacity = 0` (the invariant of every reachable state of this
snapshot, since `memory_manager::resize` never writes `m_capacity`):
no failure, `m_size` becomes `s`, capacity and width are untouched, and
the buffer is (a) untouched when `s = 0`, (b) untouched when the 64-bit
word count does not change on a non-null buffer, and (c) otherwise a
fresh allocation of exactly `s / 64 + 1` words — the old words followed
by heap junk — whose word at index `s / 64` is zeroed when `s` is a
multiple of 64. -/
theorem bitResize_ok (v : IVec) (s : Nat) (junk : List Nat)
    (hcap : v.capacity = 0) :
    (bitResize v s true junk).2 = false
    ∧ ((bitResize v s true junk).1).size = s
    ∧ ((bitResize v s true junk).1).capacity = 0
    ∧ ((bitResize v s true junk).1).width = v.width
    ∧ (s = 0 → ((bitResize v s true junk).1).data = v.data)
    ∧ ((v.size + 63) >>> 6 = (s + 63) >>> 6 → v.data ≠ none →
        ((bitResize v s true junk).1).data = v.data)
    ∧ (0 < s → ¬((v.size + 63) >>> 6 = (s + 63) >>> 6 ∧ v.data ≠ none) →
        ((bitResize v s true junk).1).data =
          some (if s % 64 = 0
            then (reallocWords (wordsOf v) (s / 64 + 1) junk).set (s / 64) 0
            else reallocWords (wordsOf v) (s / 64 + 1) junk)) := by
  by_cases hs : s = 0
  · subst hs
    have h1 : ¬ (0 > v.capacity) := by omega
    simp only [bitResize, if_neg h1]
    exact ⟨by trivial, by trivial, hcap, by trivial, fun _ => by trivial,
      fun _ _ => by trivial, fun h0 _ => absurd h0 (by omega)⟩
  · have hgt : s > v.capacity := by omega
    simp only [bitResize, if_pos hgt]
    by_cases hB : (v.size + 63) >>> 6 = (s + 63) >>> 6 ∧ v.data ≠ none
    · have hdo : ¬(((v.size + 63) >>> 6) <<< 3 ≠ ((s + 63) >>> 6) <<< 3
          ∨ ({ v with size := s } : IVec).data = none) := by
        rintro (hne | hnone)
        · exact hne (by rw [hB.1])
        · exact hB.2 hnone
      simp only [mmResize, if_neg hdo]
      exact ⟨by trivial, by trivial, hcap, by trivial, fun h0 => absurd h0 hs,
        fun _ _ => by trivial, fun _ hn => absurd hB hn⟩
    · have hdo : (((v.size + 63) >>> 6) <<< 3 ≠ ((s + 63) >>> 6) <<< 3
          ∨ ({ v with size := s } : IVec).data = none) := by
        by_cases hw1 : (v.size + 63) >>> 6 = (s + 63) >>> 6
        · by_cases hd : v.data = none
          · exact Or.inr hd
          · exact absurd ⟨hw1, hd⟩ hB
        · refine Or.inl (fun heq => hw1 ?_)
          rw [Nat.shiftLeft_eq, Nat.shiftLeft_eq] at heq
          omega
      have hwords : ((((s + 64) >>> 6) <<< 3) >>> 3) = s / 64 + 1 := by
        rw [Nat.shiftLeft_eq, Nat.shiftRight_eq_div_pow, Nat.shiftRight_eq_div_pow]
        omega
      simp only [mmResize, if_pos hdo, if_true, wordsOf, Option.some_ne_none, and_false,
        if_false, capacityElems, hcap, Nat.zero_div, Nat.not_lt_zero, hwords]
      by_cases hm : s % 64 = 0
      · simp only [if_pos hm]
        refine ⟨by trivial, by trivial, by trivial, by trivial, fun h0 => absurd h0 hs,
          fun h1 h2 => absurd ⟨h1, h2⟩ hB, fun _ _ => by trivial⟩
      · simp only [if_neg hm]
        refine ⟨by trivial, by trivial, by trivial, by trivial, fun h0 => absurd h0 hs,
          fun h1 h2 => absurd ⟨h1, h2⟩ hB, fun _ _ => by trivial⟩

theorem setToValueIt_fields (v : IVec) (k st : Nat) :
    (setToValueIt v k st).size = v.size
    ∧ (setToValueIt v k st).capacity = v.capacity
    ∧ (setToValueIt v k st).width = v.width := by
  unfold setToValueIt
  split <;> exact ⟨rfl, rfl, rfl⟩

theorem setToValueAll_fields (v : IVec) (k : Nat) :
    (setToValueAll v k).size = v.size
    ∧ (setToValueAll v k).capacity = v.capacity
    ∧ (setToValueAll v k).width = v.width := by
  unfold setToValueAll
  split
  · exact ⟨rfl, rfl, rfl⟩
  · split
    · exact ⟨rfl, rfl, rfl⟩
    · exact setToValueIt_fields _ _ _

theorem setToValueIt_data (v : IVec) (k st : Nat) (h : v.size ≠ 0) :
    (setToValueIt v k st).data
      = some (setElemsFromAux v.width k st (sizeElems v - st) (wordsOf v)) := by
  unfold setToValueIt
  rw [if_neg h]

/-- C3 (amended): `resize(n, value)` never goes through the `1.5^k`
growth policy — that policy exists only in `amortized_resize`
(`push_back`/`insert`).  From any state of this snapshot
(`m_capacity = 0` throughout, since `memory_manager::resize` never
writes it): the call succeeds, sets `m_size = n·width` and leaves
`m_capacity` untouched (so no capacity of the form
`initialCapacity·1.5^k` ever appears); whenever the 64-bit word count
changes (growing *or* shrinking) the buffer is reallocated to exactly
`⌊n·width/64⌋ + 1` words — the requested size plus the single padding
word; a resize within the same word count on a live buffer (in
particular any shrink that stays in the same word) leaves the buffer
untouched; and every element index in `[size(), n)` afterwards reads
back exactly `value`. -/
theorem claim_C3_resize_exact_request (v : IVec) (n value : Nat) (junk : List Nat)
    (hcap : v.capacity = 0) (hw : 0 < v.width)
    (hlen : (v.size + 63) >>> 6 ≤ (wordsOf v).length)
    (hv : value < 2 ^ v.width) :
    (resizeIV v n value true junk).2 = false
    ∧ ((resizeIV v n value true junk).1).size = n * v.width
    ∧ ((resizeIV v n value true junk).1).capacity = 0
    ∧ (0 < n * v.width →
        ¬((v.size + 63) >>> 6 = (n * v.width + 63) >>> 6 ∧ v.data ≠ none) →
        (wordsOf ((resizeIV v n value true junk).1)).length = n * v.width / 64 + 1)
    ∧ ((v.size + 63) >>> 6 = (n * v.width + 63) >>> 6 → v.data ≠ none → n ≤ sizeElems v →
        ((resizeIV v n value true junk).1).data = v.data)
    ∧ (∀ i, sizeElems v ≤ i → i < n →
        getElemIV ((resizeIV v n value true junk).1) i = value) := by
  obtain ⟨hf, hsz, hcp, hwd, hd0, hdkeep, hdrealloc⟩ := bitResize_ok v (n * v.width) junk hcap
  have hpair : bitResize v (n * v.width) true junk
      = ((bitResize v (n * v.width) true junk).1, false) := by
    rw [← hf]
  have hres : resizeIV v n value true junk
      = (setToValueIt (bitResize v (n * v.width) true junk).1 value
          (v.size / ((bitResize v (n * v.width) true junk).1).width), false) := by
    simp only [resizeIV, bitResizeFill]
    rw [hpair]
  obtain ⟨hs1, hs2, hs3⟩ := setToValueIt_fields (bitResize v (n * v.width) true junk).1 value
    (v.size / ((bitResize v (n * v.width) true junk).1).width)
  have hst : v.size / ((bitResize v (n * v.width) true junk).1).width = sizeElems v := by
    rw [hwd]; rfl
  refine ⟨by rw [hres], ?_, ?_, ?_, ?_, ?_⟩
  · rw [hres]
    simpa [hs1] using hsz
  · rw [hres]
    simpa [hs2] using hcp
  · intro h1 h2
    have hdr := hdrealloc h1 h2
    have hbr0 : ((bitResize v (n * v.width) true junk).1).size ≠ 0 := by
      rw [hsz]; omega
    rw [hres]
    show (wordsOf (setToValueIt _ value _)).length = _
    rw [wordsOf, setToValueIt_data _ _ _ hbr0, Option.getD_some, length_setElemsFromAux,
      wordsOf, hdr, Option.getD_some]
    split
    · rw [List.length_set, length_reallocWords]
    · rw [length_reallocWords]
  · intro h1 h2 h3
    have hdk := hdkeep h1 h2
    rw [hres]
    by_cases hbr0 : ((bitResize v (n * v.width) true junk).1).size = 0
    · show (setToValueIt _ value _).data = v.data
      unfold setToValueIt
      rw [if_pos hbr0]
      exact hdk
    · show (setToValueIt _ value _).data = v.data
      rw [setToValueIt_data _ _ _ hbr0]
      have hcnt : sizeElems (bitResize v (n * v.width) true junk).1
          - v.size / ((bitResize v (n * v.width) true junk).1).width = 0 := by
        rw [hst]
        have : sizeElems (bitResize v (n * v.width) true junk).1 = n := by
          rw [sizeElems, hsz, hwd, Nat.mul_div_cancel _ hw]
        rw [this]
        omega
      rw [hcnt]
      obtain ⟨ws, hws⟩ : ∃ ws, v.data = some ws := by
        cases hd : v.data with
        | none => exact absurd hd h2
        | some ws => exact ⟨ws, rfl⟩
      rw [show setElemsFromAux ((bitResize v (n * v.width) true junk).1).width value
          (v.size / ((bitResize v (n * v.width) true junk).1).width) 0
          (wordsOf (bitResize v (n * v.width) true junk).1)
          = wordsOf (bitResize v (n * v.width) true junk).1 from rfl,
        wordsOf, hdk, hws, Option.getD_some]
  · intro i hi1 hi2
    have hwpos : 0 < n * v.width := by
      have : 0 < n := by omega
      positivity
    have hbr0 : ((bitResize v (n * v.width) true junk).1).size ≠ 0 := by
      rw [hsz]; omega
    have hblen : n * v.width ≤ 64 * (wordsOf (bitResize v (n * v.width) true junk).1).length := by
      by_cases hk : (v.size + 63) >>> 6 = (n * v.width + 63) >>> 6 ∧ v.data ≠ none
      · have hdk := hdkeep hk.1 hk.2
        have : wordsOf (bitResize v (n * v.width) true junk).1 = wordsOf v := by
          rw [wordsOf, hdk, wordsOf]
        rw [this]
        have h64 : (v.size + 63) >>> 6 = (v.size + 63) / 64 := by
          rw [Nat.shiftRight_eq_div_pow]
        have h64' : (n * v.width + 63) >>> 6 = (n * v.width + 63) / 64 := by
          rw [Nat.shiftRight_eq_div_pow]
        rw [h64, h64'] at hk
        rw [h64] at hlen
        omega
      · have hdr := hdrealloc hwpos hk
        have : (wordsOf (bitResize v (n * v.width) true junk).1).length
            = n * v.width / 64 + 1 := by
          rw [wordsOf, hdr, Option.getD_some]
          split
          · rw [List.length_set, length_reallocWords]
          · rw [length_reallocWords]
        rw [this]
        omega
    have hsb : sizeElems (bitResize v (n * v.width) true junk).1 = n := by
      rw [sizeElems, hsz, hwd, Nat.mul_div_cancel _ hw]
    rw [hres]
    show getElemIV (setToValueIt _ value _) i = value
    rw [getElemIV]
    have hwd2 : (setToValueIt (bitResize v (n * v.width) true junk).1 value
        (v.size / ((bitResize v (n * v.width) true junk).1).width)).width = v.width := by
      rw [hs3, hwd]
    rw [hwd2, wordsOf, setToValueIt_data _ _ _ hbr0, Option.getD_some, hsb, hst, hwd]
    have := getElem_setElemsFromAux ((bitResize v (n * v.width) true junk).1).width value
      (sizeElems v) (n - sizeElems v) (wordsOf (bitResize v (n * v.width) true junk).1) i
      (by rw [hwd, show sizeElems v + (n - sizeElems v) = n from by omega]; exact hblen)
      hi1 (by omega)
    rw [hwd] at this
    rw [this, Nat.mod_eq_of_lt hv]

/-- C5 (amended): when the reallocation inside a growing `resize` fails,
`std::bad_alloc` does propagate synchronously, but the vector is *not*
left unchanged: `memory_manager::resize` has already overwritten
`m_size` with the requested bit count and `realloc` has nulled
`m_data`, losing the old contents; only `m_capacity` (and `m_width`)
are untouched.  There is no allocate-then-swap discipline. -/
theorem claim_C5_alloc_failure_mutates (v : IVec) (n value : Nat) (junk : List Nat)
    (hcap : v.capacity = 0)
    (h0 : 0 < n * v.width)
    (hch : ¬((v.size + 63) >>> 6 = (n * v.width + 63) >>> 6 ∧ v.data ≠ none)) :
    (resizeIV v n value false junk).2 = true
    ∧ ((resizeIV v n value false junk).1).size = n * v.width
    ∧ ((resizeIV v n value false junk).1).data = none
    ∧ ((resizeIV v n value false junk).1).capacity = v.capacity
    ∧ ((resizeIV v n value false junk).1).width = v.width := by
  have hgt : n * v.width > v.capacity := by omega
  have hdo : (((v.size + 63) >>> 6) <<< 3 ≠ ((n * v.width + 63) >>> 6) <<< 3
      ∨ ({ v with size := n * v.width } : IVec).data = none) := by
    by_cases hw1 : (v.size + 63) >>> 6 = (n * v.width + 63) >>> 6
    · by_cases hd : v.data = none
      · exact Or.inr hd
      · exact absurd ⟨hw1, hd⟩ hch
    · refine Or.inl (fun heq => hw1 ?_)
      rw [Nat.shiftLeft_eq, Nat.shiftLeft_eq] at heq
      omega
  have hnz : ((n * v.width + 64) >>> 6) <<< 3 ≠ 0 := by
    rw [Nat.shiftLeft_eq, Nat.shiftRight_eq_div_pow]
    omega
  simp only [resizeIV, bitResizeFill, bitResize, if_pos hgt, mmResize, if_pos hdo,
    Bool.false_eq_true, if_false, and_true, if_pos hnz]

theorem setToValueAll_zero_data (v : IVec) (h : v.size ≠ 0) :
    (setToValueAll v 0).data = some (zeroFill (wordsOf v) ((v.size + 63) >>> 6)) := by
  unfold setToValueAll
  rw [if_neg h, if_pos rfl]

theorem getD_zeroFill (ws : List Nat) (nn m : Nat) :
    (zeroFill ws nn).getD m 0
      = if m < ws.length then (if m < nn then 0 else ws.getD m 0) else 0 := by
  rw [zeroFill, getD_range_map]

/-- C2 (amended): the padding invariant is *established at construction
with default value 0* but not maintained by every later operation (see
the counterexample).  `bit_vector v(size, 0)` with `size > 0` allocates
exactly `size/64 + 1` words and ends with every allocated word equal to
zero; in particular every bit position at or beyond the length reads 0,
and when the length is a multiple of 64 the allocated trailing padding
word exists and is zero, as rank needs. -/
theorem claim_C2_padding_after_construction (size : Nat) (junk : List Nat) (h1 : 0 < size) :
    (constructIV 1 size 0 1 true junk).2 = false
    ∧ ((constructIV 1 size 0 1 true junk).1).size = size
    ∧ (wordsOf ((constructIV 1 size 0 1 true junk).1)).length = size / 64 + 1
    ∧ (∀ m, (wordsOf ((constructIV 1 size 0 1 true junk).1)).getD m 0 = 0)
    ∧ (∀ i, size ≤ i → bitGet (wordsOf ((constructIV 1 size 0 1 true junk).1)) i = false)
    ∧ (size % 64 = 0 →
        size / 64 < (wordsOf ((constructIV 1 size 0 1 true junk).1)).length
        ∧ (wordsOf ((constructIV 1 size 0 1 true junk).1)).getD (size / 64) 0 = 0) := by
  obtain ⟨hf, hsz, hcp, hwd, hd0, hdkeep, hdrealloc⟩ :=
    bitResize_ok ⟨0, 0, none, 1⟩ (size * 1) junk rfl
  set br := (bitResize ⟨0, 0, none, 1⟩ (size * 1) true junk).1 with hbrdef
  have hpair : bitResize ⟨0, 0, none, 1⟩ (size * 1) true junk = (br, false) := by
    rw [hbrdef, ← hf]
  have hdr := hdrealloc (by omega) (by rintro ⟨-, hne⟩; exact hne rfl)
  have hw1 : br.width = 1 := hwd
  have hbr0 : br.size ≠ 0 := by rw [hsz]; omega
  have hz : 0 / br.width = 0 := Nat.zero_div _
  have hres : resizeIV ⟨0, 0, none, 1⟩ size 0 true junk
      = (setToValueIt br 0 (0 / br.width), false) := by
    simp only [resizeIV, bitResizeFill]
    rw [hpair]
  set r2 := setToValueIt br 0 (0 / br.width) with hr2def
  have hr2size : r2.size = size * 1 := by
    rw [hr2def, (setToValueIt_fields br 0 _).1, hsz]
  have hcon : constructIV 1 size 0 1 true junk = (setToValueAll r2 0, false) := by
    simp only [constructIV, assignIV, show setWidthFn 1 1 1 = 1 from rfl]
    rw [hres]
  have hsb : sizeElems br = size := by
    rw [sizeElems, hsz, hw1]
    omega
  have hws2 : wordsOf r2 = setElemsFromAux br.width 0 0 (sizeElems br) (wordsOf br) := by
    rw [hr2def, wordsOf, setToValueIt_data br 0 _ hbr0, Option.getD_some, hz, Nat.sub_zero]
  have hlen2 : (wordsOf r2).length = size / 64 + 1 := by
    rw [hws2, length_setElemsFromAux, wordsOf, hdr, Option.getD_some]
    have hm1 : size * 1 / 64 = size / 64 := by omega
    split
    · rw [List.length_set, length_reallocWords, hm1]
    · rw [length_reallocWords, hm1]
  have hfd : (setToValueAll r2 0).data
      = some (zeroFill (wordsOf r2) ((r2.size + 63) >>> 6)) :=
    setToValueAll_zero_data r2 (by rw [hr2size]; omega)
  have hwsfin : wordsOf (setToValueAll r2 0)
      = zeroFill (wordsOf r2) ((r2.size + 63) >>> 6) := by
    rw [wordsOf, hfd, Option.getD_some]
  have hceil : (r2.size + 63) >>> 6 = (size + 63) / 64 := by
    rw [hr2size, Nat.shiftRight_eq_div_pow]
    norm_num
  have hgd : ∀ m, (wordsOf (setToValueAll r2 0)).getD m 0 = 0 := by
    intro m
    rw [hwsfin, getD_zeroFill]
    by_cases hm1 : m < (wordsOf r2).length
    · rw [if_pos hm1]
      by_cases hm2 : m < (r2.size + 63) >>> 6
      · rw [if_pos hm2]
      · rw [if_neg hm2]
        rw [hceil] at hm2
        rw [hlen2] at hm1
        have hmod : size % 64 = 0 := by omega
        have hmeq : m = size / 64 := by omega
        rw [hws2, getD_setElemsFromAux_high _ _ _ _ _ m (by rw [hsb, hw1]; omega),
          wordsOf, hdr, Option.getD_some, if_pos (show size * 1 % 64 = 0 by omega)]
        rw [show size * 1 / 64 = m by omega]
        exact getD_set_self _ _ _ (by rw [length_reallocWords]; omega)
    · rw [if_neg hm1]
  refine ⟨by rw [hcon], ?_, ?_, ?_, ?_, ?_⟩
  · rw [hcon]
    show (setToValueAll r2 0).size = size
    rw [(setToValueAll_fields r2 0).1, hr2size]
    omega
  · rw [hcon]
    show (wordsOf (setToValueAll r2 0)).length = size / 64 + 1
    rw [hwsfin, length_zeroFill, hlen2]
  · intro m
    rw [hcon]
    exact hgd m
  · intro i _
    rw [hcon]
    show bitGet (wordsOf (setToValueAll r2 0)) i = false
    rw [bitGet, hgd (i / 64), Nat.zero_testBit]
  · intro hm
    rw [hcon]
    refine ⟨?_, hgd (size / 64)⟩
    show size / 64 < (wordsOf (setToValueAll r2 0)).length
    rw [hwsfin, length_zeroFill, hlen2]
    omega

/-- C7 (amended): `serialize` writes exactly one 64-bit header word
`(width << 56) | m_size` — the low 56 bits hold the *bit length*
`m_size` (= elementCount · width), not the element count — followed by
`bit_data_size() = ceil(bitLength/64)` 64-bit data words, which are the
allocated words in order. -/
theorem claim_C7_header_is_bit_length (v : IVec)
    (hwhi : v.width < 256) (hsz : v.size < 2 ^ 56) :
    (serializeIV v).headD 0 = v.width * 2 ^ 56 + v.size
    ∧ (serializeIV v).headD 0 >>> 56 = v.width
    ∧ (serializeIV v).headD 0 &&& loSet 56 = v.size
    ∧ (serializeIV v).length = 1 + (v.size + 63) / 64
    ∧ (∀ i, i < (v.size + 63) / 64 →
        (serializeIV v).getD (1 + i) 0 = (wordsOf v).getD i 0) := by
  obtain ⟨h1, h2, h3⟩ := header_split v.width v.size hwhi hsz
  have hhead : (serializeIV v).headD 0 = (v.width <<< 56) ||| v.size := rfl
  have hc : (v.size + 63) >>> 6 = (v.size + 63) / 64 := by
    rw [Nat.shiftRight_eq_div_pow]
  refine ⟨by rw [hhead, h1], by rw [hhead, h3], by rw [hhead, h2], ?_, ?_⟩
  · rw [serializeIV, List.length_cons, length_range_map, hc]
    omega
  · intro i hi
    rw [serializeIV, show (1 + i) = i + 1 from by omega, List.getD_cons_succ,
      getD_range_map, hc, if_pos hi]

theorem defaultIV_eq (tw : Nat) : defaultIV tw = ⟨0, 0, none, setWidthFn tw tw tw⟩ := by
  simp [defaultIV, constructIV, assignIV, resizeIV, bitResizeFill, bitResize,
    setToValueIt, setToValueAll, Nat.zero_mul]

/-- C9: loading a stream whose header width `hw` differs from the fixed
width `tw > 0` is recoverable exactly as claimed: the load completes
without failure, `m_width` keeps the static width `tw` (only
`t_width = 0` adopts the stored width, `read_header`,
`int_vector.hpp` lines 787-803), the size declared in the header's low
56 bits is honored, and the warning is emitted. -/
theorem claim_C9_width_mismatch_recoverable (tw hw hsize : Nat) (rest junk : List Nat)
    (htw : 0 < tw) (hhw : hw < 256) (hhs : hsize < 2 ^ 56) (hne : tw ≠ hw) :
    (loadIV tw (defaultIV tw) (((hw <<< 56) ||| hsize) :: rest) true junk).2.1 = false
    ∧ (loadIV tw (defaultIV tw) (((hw <<< 56) ||| hsize) :: rest) true junk).2.2 = true
    ∧ ((loadIV tw (defaultIV tw) (((hw <<< 56) ||| hsize) :: rest) true junk).1).width = tw
    ∧ ((loadIV tw (defaultIV tw) (((hw <<< 56) ||| hsize) :: rest) true junk).1).size
        = hsize := by
  have hdw : setWidthFn tw tw tw = tw := by
    unfold setWidthFn
    rw [if_neg (by omega)]
  have hdflt : defaultIV tw = ⟨0, 0, none, tw⟩ := by
    rw [defaultIV_eq, hdw]
  obtain ⟨hh1, hh2, hh3⟩ := header_split hw hsize hhw hhs
  have hrw : (((hw <<< 56) ||| hsize) >>> 56) % 256 = hw := by
    rw [hh3, Nat.mod_eq_of_lt hhw]
  have hwarn : decide (0 < tw ∧ tw ≠ (((hw <<< 56) ||| hsize) >>> 56) % 256) = true := by
    rw [hrw]
    exact decide_eq_true ⟨htw, hne⟩
  have htw0 : ¬ tw = 0 := by omega
  obtain ⟨hf, hsz2, hcp2, hwd2, -, -, -⟩ := bitResize_ok ⟨0, 0, none, tw⟩ hsize junk rfl
  have hpair : bitResize ⟨0, 0, none, tw⟩ hsize true junk
      = ((bitResize ⟨0, 0, none, tw⟩ hsize true junk).1, false) := by
    rw [← hf]
  simp only [loadIV, List.headD_cons, hh2, hwarn, if_neg htw0, hdflt]
  rw [hpair]
  exact ⟨rfl, rfl, hwd2, hsz2⟩

/-- Behaviour of a successful `load` into a vector with `m_capacity = 0`:
no failure, the warning flag is exactly the fixed-width mismatch test,
size and width come from the header as in `read_header`, and — when the
header size is positive and the target buffer was null — every bit below
the read range comes from the corresponding stream word. -/
theorem loadIV_spec (tw : Nat) (v0 : IVec) (stream junk : List Nat)
    (hcap : v0.capacity = 0) :
    (loadIV tw v0 stream true junk).2.1 = false
    ∧ (loadIV tw v0 stream true junk).2.2
        = decide (0 < tw ∧ tw ≠ (stream.headD 0 >>> 56) % 256)
    ∧ ((loadIV tw v0 stream true junk).1).size = stream.headD 0 &&& loSet 56
    ∧ ((loadIV tw v0 stream true junk).1).width
        = (if tw = 0 then (stream.headD 0 >>> 56) % 256 else v0.width)
    ∧ ((loadIV tw v0 stream true junk).1).capacity = 0
    ∧ (0 < stream.headD 0 &&& loSet 56 → v0.data = none →
        ∀ j, j < 64 * (((stream.headD 0 &&& loSet 56) + 63) >>> 6) →
          bitGet (wordsOf ((loadIV tw v0 stream true junk).1)) j
            = (stream.getD (1 + j / 64) 0).testBit (j % 64)) := by
  obtain ⟨hf, hsz2, hcp2, hwd2, hd0, hdkeep, hdrealloc⟩ :=
    bitResize_ok
      { v0 with width := (if tw = 0 then (stream.headD 0 >>> 56) % 256 else v0.width) }
      (stream.headD 0 &&& loSet 56) junk hcap
  have hpair : bitResize
      { v0 with width := (if tw = 0 then (stream.headD 0 >>> 56) % 256 else v0.width) }
      (stream.headD 0 &&& loSet 56) true junk
      = ((bitResize
          { v0 with width := (if tw = 0 then (stream.headD 0 >>> 56) % 256 else v0.width) }
          (stream.headD 0 &&& loSet 56) true junk).1, false) := by
    rw [← hf]
  simp only [loadIV]
  rw [hpair]
  refine ⟨rfl, rfl, hsz2, hwd2, hcp2, ?_⟩
  intro hs hd0' j hj
  have hB := hdrealloc hs (by rintro ⟨-, hne⟩; exact hne hd0')
  show bitGet ((((bitResize _ _ true junk).1).data.map _).getD []) j = _
  rw [hB, Option.map_some', Option.getD_some]
  have hlenB : (if (stream.headD 0 &&& loSet 56) % 64 = 0
      then (reallocWords (wordsOf { v0 with width :=
          (if tw = 0 then (stream.headD 0 >>> 56) % 256 else v0.width) })
          ((stream.headD 0 &&& loSet 56) / 64 + 1) junk).set
          ((stream.headD 0 &&& loSet 56) / 64) 0
      else reallocWords (wordsOf { v0 with width :=
          (if tw = 0 then (stream.headD 0 >>> 56) % 256 else v0.width) })
          ((stream.headD 0 &&& loSet 56) / 64 + 1) junk).length
      = (stream.headD 0 &&& loSet 56) / 64 + 1 := by
    split
    · rw [List.length_set, length_reallocWords]
    · rw [length_reallocWords]
  rw [bitGet, getD_range_map, hsz2, hlenB]
  have hshift : ((stream.headD 0 &&& loSet 56) + 63) >>> 6
      = ((stream.headD 0 &&& loSet 56) + 63) / 64 := by
    rw [Nat.shiftRight_eq_div_pow]
  rw [hshift] at hj
  rw [if_pos (by omega), if_pos (by rw [hshift]; omega)]

/-- C6: `load(store(v))` into a default-constructed vector of the same
template width reproduces `v` exactly — same size (including 0 and exact
multiples of 64), same width (for `t_width = 0` the width is taken from
the header; for fixed `t_width` the static width equals `v`'s), and
every element reads back identically. -/
theorem claim_C6_load_store_roundtrip (tw : Nat) (v : IVec) (junk : List Nat)
    (hwhi : v.width < 256)
    (hsz : v.size < 2 ^ 56)
    (htw : tw ≠ 0 → v.width = tw) :
    (loadIV tw (defaultIV tw) (serializeIV v) true junk).2.1 = false
    ∧ ((loadIV tw (defaultIV tw) (serializeIV v) true junk).1).size = v.size
    ∧ ((loadIV tw (defaultIV tw) (serializeIV v) true junk).1).width = v.width
    ∧ (∀ i, i < sizeElems v →
        getElemIV ((loadIV tw (defaultIV tw) (serializeIV v) true junk).1) i
          = getElemIV v i) := by
  obtain ⟨hh1, hh2, hh3⟩ := header_split v.width v.size hwhi hsz
  have hhead : (serializeIV v).headD 0 = (v.width <<< 56) ||| v.size := rfl
  have hcap0 : (defaultIV tw).capacity = 0 := by rw [defaultIV_eq]
  obtain ⟨hf, hwarn, hsiz, hwid, hcp, hbits⟩ :=
    loadIV_spec tw (defaultIV tw) (serializeIV v) junk hcap0
  rw [hhead, hh2] at hsiz hbits
  rw [hhead, hh3] at hwid
  have hwm : v.width % 256 = v.width := Nat.mod_eq_of_lt hwhi
  rw [hwm] at hwid
  have hwid' : ((loadIV tw (defaultIV tw) (serializeIV v) true junk).1).width = v.width := by
    rw [hwid]
    by_cases h0 : tw = 0
    · rw [if_pos h0]
    · rw [if_neg h0, defaultIV_eq]
      show setWidthFn tw tw tw = v.width
      unfold setWidthFn
      rw [if_neg h0]
      exact (htw h0).symm
  refine ⟨hf, hsiz, hwid', ?_⟩
  intro i hi
  have hd0 : (defaultIV tw).data = none := by rw [defaultIV_eq]
  have hvs : v.size ≠ 0 := by
    intro h0
    rw [sizeElems, h0, Nat.zero_div] at hi
    omega
  rw [getElemIV, getElemIV, hwid']
  apply readInt_congr
  intro k hk
  have hj : i * v.width + k < v.size := by
    have h1 : (i + 1) * v.width ≤ (v.size / v.width) * v.width :=
      Nat.mul_le_mul_right _ hi
    have h2 : (v.size / v.width) * v.width ≤ v.size := Nat.div_mul_le_self _ _
    have h3 : (i + 1) * v.width = i * v.width + v.width := by ring
    omega
  set j := i * v.width + k with hjdef
  have hceil : ((v.size + 63) >>> 6) = (v.size + 63) / 64 := by
    rw [Nat.shiftRight_eq_div_pow]
  have hb := hbits (by omega) hd0 j (by rw [hceil]; omega)
  rw [hb]
  have hsg : (serializeIV v).getD (1 + j / 64) 0 = (wordsOf v).getD (j / 64) 0 := by
    rw [serializeIV, show (1 + j / 64) = j / 64 + 1 from by omega, List.getD_cons_succ,
      getD_range_map, if_pos (by rw [hceil]; omega)]
  rw [hsg]
  rfl

/-- C3 witness: growing an empty `bit_vector` to 100 bits with fill
value 1. -/
theorem claim_C3_witness :
    (0:Nat) < (⟨0, 0, none, 1⟩ : IVec).width
    ∧ ((resizeIV ⟨0, 0, none, 1⟩ 100 1 true [5, 5]).2 = false
      ∧ ((resizeIV ⟨0, 0, none, 1⟩ 100 1 true [5, 5]).1).size
          = 100 * (⟨0, 0, none, 1⟩ : IVec).width
      ∧ ((resizeIV ⟨0, 0, none, 1⟩ 100 1 true [5, 5]).1).capacity = 0
      ∧ (0 < 100 * (⟨0, 0, none, 1⟩ : IVec).width →
          ¬(((⟨0, 0, none, 1⟩ : IVec).size + 63) >>> 6
              = (100 * (⟨0, 0, none, 1⟩ : IVec).width + 63) >>> 6
            ∧ (⟨0, 0, none, 1⟩ : IVec).data ≠ none) →
          (wordsOf ((resizeIV ⟨0, 0, none, 1⟩ 100 1 true [5, 5]).1)).length
            = 100 * (⟨0, 0, none, 1⟩ : IVec).width / 64 + 1)
      ∧ (((⟨0, 0, none, 1⟩ : IVec).size + 63) >>> 6
            = (100 * (⟨0, 0, none, 1⟩ : IVec).width + 63) >>> 6 →
          (⟨0, 0, none, 1⟩ : IVec).data ≠ none → 100 ≤ sizeElems ⟨0, 0, none, 1⟩ →
          ((resizeIV ⟨0, 0, none, 1⟩ 100 1 true [5, 5]).1).data
            = (⟨0, 0, none, 1⟩ : IVec).data)
      ∧ (∀ i, sizeElems ⟨0, 0, none, 1⟩ ≤ i → i < 100 →
          getElemIV ((resizeIV ⟨0, 0, none, 1⟩ 100 1 true [5, 5]).1) i = 1)) :=
  ⟨by decide,
   claim_C3_resize_exact_request ⟨0, 0, none, 1⟩ 100 1 [5, 5] rfl (by decide) (by decide)
     (by decide)⟩

/-- C5 witness: a failing growing reallocation on a 64-bit `bit_vector`. -/
theorem claim_C5_witness :
    (0:Nat) < 128 * (⟨64, 0, some [0, 0], 1⟩ : IVec).width
    ∧ ((resizeIV ⟨64, 0, some [0, 0], 1⟩ 128 0 false []).2 = true
      ∧ ((resizeIV ⟨64, 0, some [0, 0], 1⟩ 128 0 false []).1).size
          = 128 * (⟨64, 0, some [0, 0], 1⟩ : IVec).width
      ∧ ((resizeIV ⟨64, 0, some [0, 0], 1⟩ 128 0 false []).1).data = none
      ∧ ((resizeIV ⟨64, 0, some [0, 0], 1⟩ 128 0 false []).1).capacity
          = (⟨64, 0, some [0, 0], 1⟩ : IVec).capacity
      ∧ ((resizeIV ⟨64, 0, some [0, 0], 1⟩ 128 0 false []).1).width
          = (⟨64, 0, some [0, 0], 1⟩ : IVec).width) :=
  ⟨by decide,
   claim_C5_alloc_failure_mutates ⟨64, 0, some [0, 0], 1⟩ 128 0 [] rfl (by decide) (by decide)⟩

/-- C2 witness: `bit_vector v(64, 0)` built over junk heap contents. -/
theorem claim_C2_witness :
    (0:Nat) < 64
    ∧ ((constructIV 1 64 0 1 true [7, 7]).2 = false
      ∧ ((constructIV 1 64 0 1 true [7, 7]).1).size = 64
      ∧ (wordsOf ((constructIV 1 64 0 1 true [7, 7]).1)).length = 64 / 64 + 1
      ∧ (∀ m, (wordsOf ((constructIV 1 64 0 1 true [7, 7]).1)).getD m 0 = 0)
      ∧ (∀ i, 64 ≤ i → bitGet (wordsOf ((constructIV 1 64 0 1 true [7, 7]).1)) i = false)
      ∧ (64 % 64 = 0 →
          64 / 64 < (wordsOf ((constructIV 1 64 0 1 true [7, 7]).1)).length
          ∧ (wordsOf ((constructIV 1 64 0 1 true [7, 7]).1)).getD (64 / 64) 0 = 0)) :=
  ⟨by decide, claim_C2_padding_after_construction 64 [7, 7] (by decide)⟩

/-- C6 witness: an `int_vector<8>` with two elements, serialized and
reloaded into a default `int_vector<8>` over junk heap contents. -/
theorem claim_C6_witness :
    ((⟨16, 0, some [2055], 8⟩ : IVec).width : Nat) < 256
    ∧ ((loadIV 8 (defaultIV 8) (serializeIV ⟨16, 0, some [2055], 8⟩) true [9]).2.1 = false
      ∧ ((loadIV 8 (defaultIV 8) (serializeIV ⟨16, 0, some [2055], 8⟩) true [9]).1).size = 16
      ∧ ((loadIV 8 (defaultIV 8) (serializeIV ⟨16, 0, some [2055], 8⟩) true [9]).1).width = 8
      ∧ (∀ i, i < sizeElems ⟨16, 0, some [2055], 8⟩ →
          getElemIV ((loadIV 8 (defaultIV 8) (serializeIV ⟨16, 0, some [2055], 8⟩) true [9]).1) i
            = getElemIV ⟨16, 0, some [2055], 8⟩ i)) :=
  ⟨by decide,
   claim_C6_load_store_roundtrip 8 ⟨16, 0, some [2055], 8⟩ [9] (by decide) (by decide)
     (fun _ => rfl)⟩

/-- C7 witness: a one-element `int_vector<8>` holding the value 5. -/
theorem claim_C7_witness :
    (⟨8, 0, some [5], 8⟩ : IVec).width < 256
    ∧ ((serializeIV ⟨8, 0, some [5], 8⟩).headD 0
          = (⟨8, 0, some [5], 8⟩ : IVec).width * 2 ^ 56 + 8
      ∧ (serializeIV ⟨8, 0, some [5], 8⟩).headD 0 >>> 56 = 8
      ∧ (serializeIV ⟨8, 0, some [5], 8⟩).headD 0 &&& loSet 56 = 8
      ∧ (serializeIV ⟨8, 0, some [5], 8⟩).length = 1 + (8 + 63) / 64
      ∧ (∀ i, i < (8 + 63) / 64 →
          (serializeIV ⟨8, 0, some [5], 8⟩).getD (1 + i) 0
            = (wordsOf ⟨8, 0, some [5], 8⟩).getD i 0)) :=
  ⟨by decide, claim_C7_header_is_bit_length ⟨8, 0, some [5], 8⟩ (by decide) (by decide)⟩

/-- C9 witness: a fixed-width `int_vector<8>` loading a stream whose
header declares width 16 and 24 bits. -/
theorem claim_C9_witness :
    (8:Nat) ≠ 16
    ∧ ((loadIV 8 (defaultIV 8) (((16 <<< 56) ||| 24) :: [111]) true [7]).2.1 = false
      ∧ (loadIV 8 (defaultIV 8) (((16 <<< 56) ||| 24) :: [111]) true [7]).2.2 = true
      ∧ ((loadIV 8 (defaultIV 8) (((16 <<< 56) ||| 24) :: [111]) true [7]).1).width = 8
      ∧ ((loadIV 8 (defaultIV 8) (((16 <<< 56) ||| 24) :: [111]) true [7]).1).size = 24) :=
  ⟨by decide,
   claim_C9_width_mismatch_recoverable 8 16 24 [111] [7] (by decide) (by decide) (by decide)
     (by decide)⟩
